import Mathlib

/-! Blob stores of the reflector: caching composition and disk layout.

A shallow embedding of `store/caching.go` and `store/disk.go`.

* Go strings are lists of characters (`GoString`); every hash the stores
  handle is ASCII, where Go's bytes and characters coincide.
* A blob (`stream.Blob`, a byte slice) is a list of bytes; Go's `nil` slice
  is the empty list.
* A Go `error` value is `Option Error`, `none` being `nil`.
* A store behind the `BlobStore` interface is a record of state-passing
  functions over its own state type.
-/

namespace Reflector

/-- Go `string`: a sequence of characters. -/
abbrev GoString := List Char

/-- The type `stream.Blob`: a byte slice, `nil` being the empty list. -/
abbrev Blob := List UInt8

/-- Error numbers of the operating system that the file operations report. -/
inductive Errno where
  | ENOENT
  | ENOTDIR
  | EISDIR
  | ENOTEMPTY
  | EEXIST
  | EBUSY
  deriving DecidableEq, Repr

deriving instance DecidableEq for Except

/-- Go error values that reach the stores. `traced` is the stack-trace wrapper
that `errors.Err` puts around an error. -/
inductive Error where
  | ErrBlobNotFound
  | pathError (errno : Errno)
  | other (msg : String)
  | traced (inner : Error)
  deriving DecidableEq, Repr

/-- The call `errors.Err(err)`: `nil` stays `nil`, an error gets a stack trace. -/
def errorsErr : Option Error → Option Error
  | none => none
  | some (Error.traced e) => some (Error.traced e)
  | some e => some (Error.traced e)

/-- The call `errors.Is(err, target)`: `err` or an error it wraps equals `target`. -/
def errorsIs : Error → Error → Bool
  | Error.traced e, target => (Error.traced e == target) || errorsIs e target
  | e, target => e == target

/-- The call `os.IsNotExist(err)` on an error returned by the os package. -/
def osIsNotExist : Error → Bool
  | Error.pathError Errno.ENOENT => true
  | _ => false

/-- The interface `BlobStore`, over the state `σ` of the store behind it. -/
structure BlobStore (σ : Type) where
  Name : String
  Has : GoString → σ → (Bool × Option Error) × σ
  Get : GoString → σ → (Blob × Option Error) × σ
  Put : GoString → Blob → σ → Option Error × σ
  PutSD : GoString → Blob → σ → Option Error × σ
  Delete : GoString → σ → Option Error × σ

/-- Which of the two wrapped stores a call goes to. -/
inductive Layer where
  | origin
  | cache
  deriving DecidableEq, Repr

/-- A method call on a wrapped store, with its arguments. -/
inductive Call where
  | Has (hash : GoString)
  | Get (hash : GoString)
  | Put (hash : GoString) (blob : Blob)
  | PutSD (hash : GoString) (blob : Blob)
  | Delete (hash : GoString)
  deriving DecidableEq, Repr

/-- Modelled from the spec: `WithSingleFlight`, whose source is not part of the
files at hand. Section 4.E: concurrent `Get`/`Has` on one key are coalesced,
`Put`, `PutSD`, `Delete` pass through; a caller that is alone gets the wrapped
store's own result, so in a sequential run the wrapper is the store itself. -/
def WithSingleFlight {σ : Type} ( _component : String) (s : BlobStore σ) : BlobStore σ := s

/-- The struct `CachingStore`. -/
structure CachingStore (σo σc : Type) where
  origin : BlobStore σo
  cache : BlobStore σc
  component : String

/-- The constructor `NewCachingStore`. -/
def NewCachingStore {σo σc : Type} (component : String) (origin : BlobStore σo)
    (cache : BlobStore σc) : CachingStore σo σc :=
  { component := component
    origin := WithSingleFlight component origin
    cache := cache }

/-- What a `CachingStore` acts on: the states of the two wrapped stores, the
calls made on them so far (oldest first), and the two metric counters. -/
structure World (σo σc : Type) where
  originState : σo
  cacheState : σc
  calls : List (Layer × Call)
  CacheHitCount : Nat
  CacheMissCount : Nat

namespace World

variable {σo σc : Type}

/-- A world in which no call has been made yet. -/
def start (o : σo) (c : σc) : World σo σc :=
  { originState := o, cacheState := c, calls := [], CacheHitCount := 0, CacheMissCount := 0 }

/-- Record a call on a wrapped store. -/
def log (w : World σo σc) (l : Layer) (c : Call) : World σo σc :=
  { w with calls := w.calls ++ [(l, c)] }

end World

namespace CachingStore

variable {σo σc : Type}

/-- The call `c.cache.Has(hash)`. -/
def cacheHas (c : CachingStore σo σc) (hash : GoString) (w : World σo σc) :
    (Bool × Option Error) × World σo σc :=
  let r := c.cache.Has hash w.cacheState
  (r.1, { w.log Layer.cache (Call.Has hash) with cacheState := r.2 })

/-- The call `c.origin.Has(hash)`. -/
def originHas (c : CachingStore σo σc) (hash : GoString) (w : World σo σc) :
    (Bool × Option Error) × World σo σc :=
  let r := c.origin.Has hash w.originState
  (r.1, { w.log Layer.origin (Call.Has hash) with originState := r.2 })

/-- The call `c.cache.Get(hash)`. -/
def cacheGet (c : CachingStore σo σc) (hash : GoString) (w : World σo σc) :
    (Blob × Option Error) × World σo σc :=
  let r := c.cache.Get hash w.cacheState
  (r.1, { w.log Layer.cache (Call.Get hash) with cacheState := r.2 })

/-- The call `c.origin.Get(hash)`. -/
def originGet (c : CachingStore σo σc) (hash : GoString) (w : World σo σc) :
    (Blob × Option Error) × World σo σc :=
  let r := c.origin.Get hash w.originState
  (r.1, { w.log Layer.origin (Call.Get hash) with originState := r.2 })

/-- The call `c.cache.Put(hash, blob)`. -/
def cachePut (c : CachingStore σo σc) (hash : GoString) (blob : Blob) (w : World σo σc) :
    Option Error × World σo σc :=
  let r := c.cache.Put hash blob w.cacheState
  (r.1, { w.log Layer.cache (Call.Put hash blob) with cacheState := r.2 })

/-- The call `c.origin.Put(hash, blob)`. -/
def originPut (c : CachingStore σo σc) (hash : GoString) (blob : Blob) (w : World σo σc) :
    Option Error × World σo σc :=
  let r := c.origin.Put hash blob w.originState
  (r.1, { w.log Layer.origin (Call.Put hash blob) with originState := r.2 })

/-- The call `c.cache.PutSD(hash, blob)`. -/
def cachePutSD (c : CachingStore σo σc) (hash : GoString) (blob : Blob) (w : World σo σc) :
    Option Error × World σo σc :=
  let r := c.cache.PutSD hash blob w.cacheState
  (r.1, { w.log Layer.cache (Call.PutSD hash blob) with cacheState := r.2 })

/-- The call `c.origin.PutSD(hash, blob)`. -/
def originPutSD (c : CachingStore σo σc) (hash : GoString) (blob : Blob) (w : World σo σc) :
    Option Error × World σo σc :=
  let r := c.origin.PutSD hash blob w.originState
  (r.1, { w.log Layer.origin (Call.PutSD hash blob) with originState := r.2 })

/-- The call `c.cache.Delete(hash)`. -/
def cacheDelete (c : CachingStore σo σc) (hash : GoString) (w : World σo σc) :
    Option Error × World σo σc :=
  let r := c.cache.Delete hash w.cacheState
  (r.1, { w.log Layer.cache (Call.Delete hash) with cacheState := r.2 })

/-- The call `c.origin.Delete(hash)`. -/
def originDelete (c : CachingStore σo σc) (hash : GoString) (w : World σo σc) :
    Option Error × World σo σc :=
  let r := c.origin.Delete hash w.originState
  (r.1, { w.log Layer.origin (Call.Delete hash) with originState := r.2 })

/-- The method `CachingStore.Name`. -/
def Name ( _c : CachingStore σo σc) : String := "caching"

/-- The method `CachingStore.Has`. -/
def Has (c : CachingStore σo σc) (hash : GoString) (w : World σo σc) :
    (Bool × Option Error) × World σo σc :=
  let r := c.cacheHas hash w
  if r.1.1 || r.1.2.isSome then
    (r.1, r.2)
  else
    c.originHas hash r.2

/-- The method `CachingStore.Get`. The gauge `CacheRetrievalSpeed`, a function
of the wall clock, is left out. -/
def Get (c : CachingStore σo σc) (hash : GoString) (w : World σo σc) :
    (Blob × Option Error) × World σo σc :=
  let r := c.cacheGet hash w
  let hit : Bool :=
    match r.1.2 with
    | none => true
    | some err => !errorsIs err Error.ErrBlobNotFound
  if hit then
    (r.1, { r.2 with CacheHitCount := r.2.CacheHitCount + 1 })
  else
    let w1 := { r.2 with CacheMissCount := r.2.CacheMissCount + 1 }
    let o := c.originGet hash w1
    match o.1.2 with
    | some err => (([], some err), o.2)
    | none =>
      let p := c.cachePut hash o.1.1 o.2
      ((o.1.1, p.1), p.2)

/-- The method `CachingStore.Put`. -/
def Put (c : CachingStore σo σc) (hash : GoString) (blob : Blob) (w : World σo σc) :
    Option Error × World σo σc :=
  let r := c.originPut hash blob w
  match r.1 with
  | some err => (some err, r.2)
  | none => c.cachePut hash blob r.2

/-- The method `CachingStore.PutSD`. -/
def PutSD (c : CachingStore σo σc) (hash : GoString) (blob : Blob) (w : World σo σc) :
    Option Error × World σo σc :=
  let r := c.originPutSD hash blob w
  match r.1 with
  | some err => (some err, r.2)
  | none => c.cachePutSD hash blob r.2

/-- The method `CachingStore.Delete`. -/
def Delete (c : CachingStore σo σc) (hash : GoString) (w : World σo σc) :
    Option Error × World σo σc :=
  let r := c.originDelete hash w
  match r.1 with
  | some err => (some err, r.2)
  | none => c.cacheDelete hash r.2

end CachingStore

/-! ## Paths and the file system

`path.Join`, `path.Clean` and the file operations of `os` and `ioutil` that
`store/disk.go` calls belong to the Go standard library. They are modelled
here by their documented behaviour on a file tree without symbolic links and
without permission or device failures: an operation fails only for a reason
that the shape of the tree gives (a missing entry, a file where a directory is
needed, a directory where a file is needed, a directory that is not empty).

A name is resolved as `path.Clean` resolves it, and a name may have any
length. The system does the same with a name in which no element `..` comes
after another element and which keeps to its limits on the length of a file
name and of a path; it walks an element `..` through the directory before it,
which must exist, and it refuses a longer name with `ENAMETOOLONG`. The paths
that `store/disk.go` hands to `os.Stat`, `ioutil.ReadFile`, `ioutil.WriteFile`
and `os.Remove` come out of `path.Join`, which cleans them; the name of the
directory of the store goes to `os.MkdirAll` as it was given. The predicate
`DiskStore.namesFit` below says of a store and a hash that all these names are
names on which the system and the file tree here act alike; on other names
the file tree is the more permissive of the two. The statement that `Delete`
returns no error on a tree that the store owns has `DiskStore.namesFit` as a
hypothesis. The other statements about the disk store are statements about
this file tree, and so about the system for the names that fit.
-/

/-- The elements of a path: the pieces between its slashes. -/
def splitSlash : GoString → List GoString
  | [] => [[]]
  | c :: cs =>
    if c = '/' then [] :: splitSlash cs
    else
      match splitSlash cs with
      | [] => [[c]]
      | x :: xs => (c :: x) :: xs

/-- One element of a path processed by `path.Clean`, on the stack of the
elements kept so far (the last one first): an empty element and `.` are
dropped; `..` removes the element before it, is kept at the start of a path
that is not rooted, and is dropped at the start of a rooted path. -/
def cleanStep (rooted : Bool) (stack : List GoString) (e : GoString) : List GoString :=
  if e = [] ∨ e = ['.'] then stack
  else if e = ['.', '.'] then
    match stack with
    | [] => if rooted then [] else [e]
    | top :: rest => if top = ['.', '.'] then e :: stack else rest
  else e :: stack

/-- A path in lexical normal form: whether it starts at the root, and its
elements, the last one first. The parent directory is the tail. -/
structure FPath where
  rooted : Bool
  rev : List GoString
  deriving DecidableEq, Repr

/-- The lexical normal form of a path string. -/
def resolve (s : GoString) : FPath :=
  let rooted : Bool := s.head? == some '/'
  { rooted := rooted, rev := (splitSlash s).foldl (cleanStep rooted) [] }

/-- The elements joined with slashes. -/
def joinSlash : List GoString → GoString
  | [] => []
  | [e] => e
  | e :: es => e ++ '/' :: joinSlash es

/-- The string of a path in normal form. -/
def render (p : FPath) : GoString :=
  if p.rooted then '/' :: joinSlash p.rev.reverse
  else if p.rev = [] then ['.']
  else joinSlash p.rev.reverse

/-- The function `path.Clean`. -/
def pathClean (s : GoString) : GoString := render (resolve s)

/-- The function `path.Join` on two elements: empty elements are ignored, the
others are joined with a slash and the result is cleaned; when both are empty
the result is the empty string. -/
def pathJoin (a b : GoString) : GoString :=
  if a = [] then (if b = [] then [] else pathClean b)
  else if b = [] then pathClean a
  else pathClean (a ++ '/' :: b)

/-- What a path of the file tree names. -/
inductive Node where
  | file (data : Blob)
  | dir
  deriving DecidableEq, Repr

/-- A file tree: the entries by path. The root, the working directory and the
directories above the working directory exist without an entry. -/
abbrev FS := List (FPath × Node)

namespace FS

/-- The root or working directory, or a directory above the working directory. -/
def implicitDir (p : FPath) : Bool := p.rev.all (fun e => e == ['.', '.'])

/-- The entry at a path. -/
def node (fs : FS) (p : FPath) : Option Node :=
  if implicitDir p then some Node.dir else fs.lookup p

/-- The tree with the entry at `p` replaced by `n`. -/
def set (fs : FS) (p : FPath) (n : Node) : FS :=
  (p, n) :: fs.filter (fun e => e.1 != p)

/-- The tree without an entry at `p`. -/
def erase (fs : FS) (p : FPath) : FS :=
  fs.filter (fun e => e.1 != p)

/-- Whether some entry lies directly in the directory `p`. -/
def hasChild (fs : FS) (p : FPath) : Bool :=
  fs.any (fun e =>
    e.1.rooted == p.rooted &&
      (match e.1.rev with
       | [] => false
       | _ :: rest => rest == p.rev))

/-- Path resolution by the operating system: every directory on the way must
exist (else `ENOENT`) and be a directory (else `ENOTDIR`); the result is the
entry at the path. -/
def lookupPath (fs : FS) (rooted : Bool) : List GoString → Except Errno Node
  | [] => Except.ok Node.dir
  | c :: rest =>
    match lookupPath fs rooted rest with
    | Except.error e => Except.error e
    | Except.ok (Node.file _) => Except.error Errno.ENOTDIR
    | Except.ok Node.dir =>
      match fs.node { rooted := rooted, rev := c :: rest } with
      | none => Except.error Errno.ENOENT
      | some n => Except.ok n

/-- The recursion of `os.MkdirAll` on a path in normal form. -/
def mkdirAllAux (fs : FS) (rooted : Bool) : List GoString → Option Errno × FS
  | [] => (none, fs)
  | c :: rest =>
    match lookupPath fs rooted (c :: rest) with
    | Except.ok Node.dir => (none, fs)
    | Except.ok (Node.file _) => (some Errno.ENOTDIR, fs)
    | Except.error _ =>
      match mkdirAllAux fs rooted rest with
      | (some e, fs1) => (some e, fs1)
      | (none, fs1) =>
        match fs1.node { rooted := rooted, rev := c :: rest } with
        | none => (none, fs1.set { rooted := rooted, rev := c :: rest } Node.dir)
        | some Node.dir => (none, fs1)
        | some (Node.file _) => (some Errno.EEXIST, fs1)

end FS

/-- The function `os.Stat`, on a name within the limits of the system on the
length of names. -/
def osStat (fs : FS) (name : GoString) : Except Errno Node :=
  if name = [] then Except.error Errno.ENOENT
  else fs.lookupPath (resolve name).rooted (resolve name).rev

/-- The function `ioutil.ReadFile`. -/
def ioutilReadFile (fs : FS) (name : GoString) : Except Errno Blob :=
  match osStat fs name with
  | Except.error e => Except.error e
  | Except.ok Node.dir => Except.error Errno.EISDIR
  | Except.ok (Node.file data) => Except.ok data

/-- The function `ioutil.WriteFile`, on a name within the limits of the system
on the length of names: the file is created or truncated, then written. The
directory it lies in must exist. -/
def ioutilWriteFile (fs : FS) (name : GoString) (data : Blob) : Option Errno × FS :=
  if name = [] then (some Errno.ENOENT, fs)
  else
    match (resolve name).rev with
    | [] => (some Errno.EISDIR, fs)
    | _ :: rest =>
      match fs.lookupPath (resolve name).rooted rest with
      | Except.error e => (some e, fs)
      | Except.ok (Node.file _) => (some Errno.ENOTDIR, fs)
      | Except.ok Node.dir =>
        match fs.node (resolve name) with
        | some Node.dir => (some Errno.EISDIR, fs)
        | _ => (none, fs.set (resolve name) (Node.file data))

/-- The function `os.Remove`: removes a file or an empty directory. -/
def osRemove (fs : FS) (name : GoString) : Option Errno × FS :=
  match osStat fs name with
  | Except.error e => (some e, fs)
  | Except.ok (Node.file _) => (none, fs.erase (resolve name))
  | Except.ok Node.dir =>
    if FS.implicitDir (resolve name) then (some Errno.EBUSY, fs)
    else if fs.hasChild (resolve name) then (some Errno.ENOTEMPTY, fs)
    else (none, fs.erase (resolve name))

/-- The function `os.MkdirAll`, on a name within the limits of the system on
the length of names and without an element `..` after another element (the
system walks such an element, here it is cancelled): creates the directory and
the missing directories above it; a directory that exists is a success. -/
def osMkdirAll (fs : FS) (name : GoString) : Option Errno × FS :=
  if name = [] then (some Errno.ENOENT, fs)
  else fs.mkdirAllAux (resolve name).rooted (resolve name).rev

/-- An error of the os package as a Go error value. -/
def osError (e : Option Errno) : Option Error := e.map Error.pathError

/-! ## The disk store -/

/-- The struct `DiskStore`. -/
structure DiskStore where
  blobDir : GoString
  prefixLength : Int
  initialized : Bool
  deriving DecidableEq, Repr

/-- The constructor `NewDiskStore`. -/
def NewDiskStore (dir : GoString) (prefixLength : Int) : DiskStore :=
  { blobDir := dir, prefixLength := prefixLength, initialized := false }

namespace DiskStore

/-- The method `DiskStore.Name`. -/
def Name ( _d : DiskStore) : String := "disk"

/-- The method `DiskStore.dir`. -/
def dir (d : DiskStore) (hash : GoString) : GoString :=
  if d.prefixLength ≤ 0 ∨ (hash.length : Int) < d.prefixLength then d.blobDir
  else pathJoin d.blobDir (hash.take d.prefixLength.toNat)

/-- The method `DiskStore.path`. -/
def path (d : DiskStore) (hash : GoString) : GoString :=
  pathJoin (d.dir hash) hash

/-- The method `DiskStore.ensureDirExists`. -/
def ensureDirExists ( _d : DiskStore) (dir : GoString) (fs : FS) : Option Error × FS :=
  let r := osMkdirAll fs dir
  (errorsErr (osError r.1), r.2)

/-- The method `DiskStore.initOnce`. -/
def initOnce (d : DiskStore) (fs : FS) : Option Error × (DiskStore × FS) :=
  if d.initialized then (none, (d, fs))
  else
    let r := d.ensureDirExists d.blobDir fs
    match r.1 with
    | some err => (some err, (d, r.2))
    | none => (none, ({ d with initialized := true }, r.2))

/-- The method `DiskStore.Has`. -/
def Has (d : DiskStore) (hash : GoString) (fs : FS) : (Bool × Option Error) × (DiskStore × FS) :=
  let i := d.initOnce fs
  match i.1 with
  | some err => ((false, some err), i.2)
  | none =>
    match osStat i.2.2 (i.2.1.path hash) with
    | Except.error e =>
      if osIsNotExist (Error.pathError e) then ((false, none), i.2)
      else ((false, errorsErr (some (Error.pathError e))), i.2)
    | Except.ok _ => ((true, none), i.2)

/-- The method `DiskStore.Get`. -/
def Get (d : DiskStore) (hash : GoString) (fs : FS) : (Blob × Option Error) × (DiskStore × FS) :=
  let i := d.initOnce fs
  match i.1 with
  | some err => (([], some err), i.2)
  | none =>
    match ioutilReadFile i.2.2 (i.2.1.path hash) with
    | Except.error e =>
      if osIsNotExist (Error.pathError e) then (([], errorsErr (some Error.ErrBlobNotFound)), i.2)
      else (([], errorsErr (some (Error.pathError e))), i.2)
    | Except.ok blob => ((blob, none), i.2)

/-- The method `DiskStore.Put`. -/
def Put (d : DiskStore) (hash : GoString) (blob : Blob) (fs : FS) : Option Error × (DiskStore × FS) :=
  let i := d.initOnce fs
  match i.1 with
  | some err => (some err, i.2)
  | none =>
    let e := i.2.1.ensureDirExists (i.2.1.dir hash) i.2.2
    match e.1 with
    | some err => (some err, (i.2.1, e.2))
    | none =>
      let w := ioutilWriteFile e.2 (i.2.1.path hash) blob
      (errorsErr (osError w.1), (i.2.1, w.2))

/-- The method `DiskStore.PutSD`. -/
def PutSD (d : DiskStore) (hash : GoString) (blob : Blob) (fs : FS) : Option Error × (DiskStore × FS) :=
  d.Put hash blob fs

/-- The method `DiskStore.Delete`. -/
def Delete (d : DiskStore) (hash : GoString) (fs : FS) : Option Error × (DiskStore × FS) :=
  let i := d.initOnce fs
  match i.1 with
  | some err => (some err, i.2)
  | none =>
    let h := i.2.1.Has hash i.2.2
    match h.1.2 with
    | some err => (some err, h.2)
    | none =>
      if !h.1.1 then (none, h.2)
      else
        let r := osRemove h.2.2 (h.2.1.path hash)
        (errorsErr (osError r.1), (h.2.1, r.2))

/-- A disk store behind the `BlobStore` interface; its state is the struct
together with the file tree. -/
def asBlobStore : BlobStore (DiskStore × FS) :=
  { Name := "disk"
    Has := fun hash s => s.1.Has hash s.2
    Get := fun hash s => s.1.Get hash s.2
    Put := fun hash blob s => s.1.Put hash blob s.2
    PutSD := fun hash blob s => s.1.PutSD hash blob s.2
    Delete := fun hash s => s.1.Delete hash s.2 }

end DiskStore

/-! ## Stores used to run the caching store on concrete inputs -/

/-- A disk store under `/origin`, no sharding, not yet used. -/
def originDisk : DiskStore := NewDiskStore "/origin".toList 0

/-- A disk store under `/cache`, sharded by two characters, not yet used. -/
def cacheDisk : DiskStore := NewDiskStore "/cache".toList 2

/-- A caching store of two disk stores. -/
def diskCaching : CachingStore (DiskStore × FS) (DiskStore × FS) :=
  NewCachingStore "test" DiskStore.asBlobStore DiskStore.asBlobStore

/-- A file tree in which `/origin` holds the blob `[1, 2, 3]` under `abcd`. -/
def originTree : FS := (originDisk.Put "abcd".toList [1, 2, 3] []).2.2

/-- A file tree in which `/cache` holds the blob `[1, 2, 3]` under `abcd`. -/
def cacheTree : FS := (cacheDisk.Put "abcd".toList [1, 2, 3] []).2.2

/-- A file tree in which the paths `/origin` and `/cache` are regular files, so
that no directory of either name can be made. -/
def blockedTree : FS :=
  [({ rooted := true, rev := ["origin".toList] }, Node.file []),
   ({ rooted := true, rev := ["cache".toList] }, Node.file [])]

/-- The origin holds `[1, 2, 3]` under `abcd`, the cache is empty. -/
def coldWorld : World (DiskStore × FS) (DiskStore × FS) :=
  World.start (originDisk, originTree) (cacheDisk, [])

/-- Both stores are empty. -/
def emptyWorld : World (DiskStore × FS) (DiskStore × FS) :=
  World.start (originDisk, []) (cacheDisk, [])

/-- The origin holds `[1, 2, 3]` under `abcd`, the directory of the cache
cannot be made. -/
def brokenCacheWorld : World (DiskStore × FS) (DiskStore × FS) :=
  World.start (originDisk, originTree) (cacheDisk, blockedTree)

/-- The directory of the origin cannot be made, the cache holds `[1, 2, 3]`
under `abcd`. -/
def brokenOriginWorld : World (DiskStore × FS) (DiskStore × FS) :=
  World.start (originDisk, blockedTree) (cacheDisk, cacheTree)

/-- A disk store under `/data`, sharded by two characters, not yet used. -/
def dataDisk : DiskStore := NewDiskStore "/data".toList 2

/-- The store under `/data` and its file tree after `[1, 2, 3]` was put under
`abcd`. -/
def dataState : DiskStore × FS := (dataDisk.Put "abcd".toList [1, 2, 3] []).2

/-- A name of 96 characters `a`, the length of a digest. -/
def longName : GoString := List.replicate 96 'a'

/-- A name of 96 characters `b`, the length of a digest. -/
def otherName : GoString := List.replicate 96 'b'

/-- A disk store under `/data` with a prefix length of 97. -/
def wideDisk : DiskStore := NewDiskStore "/data".toList 97

/-- The layout in the words of the spec: `<root>/<hash[0:P]>/<hash>`, and
`<root>/<hash>` when `P = 0`. -/
def specLayout (root : GoString) (P : Nat) (hash : GoString) : GoString :=
  if P = 0 then root ++ '/' :: hash
  else root ++ '/' :: (hash.take P ++ '/' :: hash)

/-! ## Predicates of the statements -/

/-- A path element that `path.Clean` keeps as it is: not empty, without a
slash, and neither `.` nor `..`. -/
def plainName (e : GoString) : Prop :=
  e ≠ [] ∧ '/' ∉ e ∧ e ≠ ['.'] ∧ e ≠ ['.', '.']

/-- A non-empty string of the characters `0` to `9` and `a` to `f`. -/
def isHex (h : GoString) : Bool :=
  !h.isEmpty && h.all (fun c => "0123456789abcdef".toList.contains c)

/-- The stack of a path in normal form: no element is empty, has a slash or is
`.`; a `..` stands only in a path that is not rooted, on top of nothing but
other `..`. -/
def NormalStack (rooted : Bool) : List GoString → Prop
  | [] => True
  | e :: rest =>
    e ≠ [] ∧ '/' ∉ e ∧ e ≠ ['.'] ∧
      (e = ['.', '.'] → rooted = false ∧ ∀ x ∈ rest, x = ['.', '.']) ∧
      NormalStack rooted rest

/-- The round-trip property of a store behind the interface: after a `Put`
that succeeds, `Get` of the same hash returns the bytes that were put. -/
def RoundTrip {σ : Type} (s : BlobStore σ) : Prop :=
  ∀ hash blob st, (s.Put hash blob st).1 = none →
    (s.Get hash (s.Put hash blob st).2).1 = (blob, none)

/-- The store reports what it holds: after a `Put` or a `Get` of a hash that
succeeds, `Has` of that hash is true. -/
def HasConsistent {σ : Type} (s : BlobStore σ) : Prop :=
  (∀ hash blob st, (s.Put hash blob st).1 = none →
    (s.Has hash (s.Put hash blob st).2).1 = (true, none)) ∧
  (∀ hash st, (s.Get hash st).1.2 = none →
    (s.Has hash (s.Get hash st).2).1 = (true, none))

/-- An entry of the file tree fits a disk store with root directory `root`
and prefix length `P`: a regular file is not on the way to the root and is not
directly under the root with a name of `P` characters (`P > 0`), the place of
a shard directory; a directory directly under the root has a name of `P`
characters (`P > 0`), and no directory lies in a directory directly under the
root. -/
def entryOwned (root : FPath) (P : Int) : FPath × Node → Bool
  | (k, Node.file _) =>
    k.rooted != root.rooted ||
      (!decide (k.rev <:+ root.rev) &&
        match k.rev with
        | x :: rest =>
          !(decide (rest = root.rev) && decide (0 < P) && decide ((x.length : Int) = P))
        | [] => true)
  | (k, Node.dir) =>
    k.rooted != root.rooted ||
      match k.rev with
      | x :: rest =>
        (!decide (rest = root.rev) || (decide (0 < P) && decide ((x.length : Int) = P))) &&
          (match rest with
           | _ :: rest2 => !decide (rest2 = root.rev)
           | [] => true)
      | [] => true

/-- The file tree holds, at and below the directory of the store, nothing but
what the store makes there: the name of the directory is not empty and every
entry of the tree fits the store. -/
def DiskStore.ownsTree (d : DiskStore) (fs : FS) : Bool :=
  !d.blobDir.isEmpty && fs.all (entryOwned (resolve d.blobDir) d.prefixLength)

/-- The largest number of bytes of a file name on Linux. -/
def NAME_MAX : Nat := 255

/-- The largest number of bytes of a path on Linux, the zero byte at its end
included. -/
def PATH_MAX : Nat := 4096

/-- The names that the store hands to the system for `hash` are names on which
the system acts as the file tree of this development does: the name of the
directory of the store is made of ASCII characters other than the zero byte
(so that its length is its number of bytes) and has no element `..`; no
element of it is longer than `NAME_MAX`, and neither is the hash; the name of
the directory and the path of the hash are shorter than `PATH_MAX`. -/
def DiskStore.namesFit (d : DiskStore) (hash : GoString) : Bool :=
  d.blobDir.all (fun c => decide (0 < c.toNat) && decide (c.toNat < 128)) &&
    (splitSlash d.blobDir).all (fun e => e != ['.', '.'] && decide (e.length ≤ NAME_MAX)) &&
    decide (hash.length ≤ NAME_MAX) &&
    decide (d.blobDir.length < PATH_MAX) &&
    decide ((d.path hash).length < PATH_MAX)

/-! ## The HTTP/3 client

The connection `c.conn` is an `http.Client` of the Go standard library over a
QUIC round tripper; what the methods of `peer/http3/client.go` see of it is
the outcome of `Get` on a URL. A run of the client carries the state of the
network and of the server behind it, the URLs requested so far, the lines
printed and the sum of the metric `MtrInBytesUdp`.
-/

/-- An HTTP response as the client reads it: the status code, and the body as
`io.Copy` finds it, which is the bytes that can be read and the error that ends
the reading, `none` at the end of the body. -/
structure Response where
  StatusCode : Int
  Body : Blob × Option Error
  deriving DecidableEq, Repr

/-- The connection `c.conn` over the state `ν` of the network: `Get` of a URL
gives a response or a transport error. -/
structure HttpConn (ν : Type) where
  Get : GoString → ν → Except Error Response × ν

/-- The struct `Client`. The round tripper, which only `Close` uses, is left
out. -/
structure Client (ν : Type) where
  Timeout : Nat
  conn : HttpConn ν
  ServerAddr : GoString

/-- What a client acts on: the network, the URLs requested so far (oldest
first), the lines printed by `fmt.Printf`, and the bytes added to the metric
`MtrInBytesUdp`. -/
structure Run (ν : Type) where
  net : ν
  requests : List GoString
  printed : List GoString
  MtrInBytesUdp : Nat
  deriving DecidableEq, Repr

/-- A run in which nothing was requested yet. -/
def Run.start {ν : Type} (net : ν) : Run ν :=
  { net := net, requests := [], printed := [], MtrInBytesUdp := 0 }

/-- The call `getBuffer()`: a buffer of the pool. A buffer is empty when it is
made and is reset by `putBuffer` before it goes back to the pool. -/
def getBuffer : Blob := []

/-- The call `io.Copy(dst, body)` on a buffer: the bytes read are appended, the
result is their number and the error that ended the reading. -/
def ioCopy (dst : Blob) (body : Blob × Option Error) : Blob × (Nat × Option Error) :=
  (dst ++ body.1, (body.1.length, body.2))

/-- The built-in `copy(dst, src)`: the first `min(len(dst), len(src))` bytes of
`dst` are replaced by those of `src`. -/
def goCopy (dst src : Blob) : Blob :=
  src.take dst.length ++ dst.drop src.length

/-- The format `%d` of a status code. -/
def fmtInt (n : Int) : GoString := (toString n).toList

/-- The error that `errors.Err("non 200 status code returned: %d", code)` makes. -/
def non200 (code : Int) : Error :=
  Error.traced (Error.other (String.mk ("non 200 status code returned: ".toList ++ fmtInt code)))

/-- A return value of Go code that can panic. -/
inductive Outcome (α : Type) where
  | ret (a : α)
  | panic (msg : String)
  deriving DecidableEq, Repr

/-- The type `stream.BlobInfo` of the lbry.go library. -/
structure BlobInfo where
  Length : Nat
  BlobNum : Nat
  BlobHash : List UInt8
  IV : List UInt8
  deriving DecidableEq, Repr

/-- The type `stream.SDBlob` of the lbry.go library; of its fields only the
list of blob infos is read. -/
structure SDBlob where
  BlobInfos : List BlobInfo
  deriving DecidableEq, Repr

/-- A hex digit. -/
def hexDigit (n : Nat) : Char := "0123456789abcdef".toList.getD n '0'

/-- The function `hex.EncodeToString`. -/
def hexEncodeToString (b : List UInt8) : GoString :=
  b.flatMap (fun x => [hexDigit (x.toNat / 16), hexDigit (x.toNat % 16)])

namespace Client

variable {ν : Type}

/-- The URL `https://<ServerAddr>/has/<hash>`. -/
def hasURL (c : Client ν) (hash : GoString) : GoString :=
  "https://".toList ++ c.ServerAddr ++ "/has/".toList ++ hash

/-- The URL `https://<ServerAddr>/get/<hash>`. -/
def getURL (c : Client ν) (hash : GoString) : GoString :=
  "https://".toList ++ c.ServerAddr ++ "/get/".toList ++ hash

/-- The call `c.conn.Get(url)`. -/
def connGet (c : Client ν) (url : GoString) (w : Run ν) : Except Error Response × Run ν :=
  let r := c.conn.Get url w.net
  (r.1, { w with net := r.2, requests := w.requests ++ [url] })

/-- The method `Client.HasBlob`. -/
def HasBlob (c : Client ν) (hash : GoString) (w : Run ν) : (Bool × Option Error) × Run ν :=
  let r := c.connGet (c.hasURL hash) w
  match r.1 with
  | Except.error err => ((false, errorsErr (some err)), r.2)
  | Except.ok resp =>
    if resp.StatusCode = 200 then ((true, none), r.2)
    else if resp.StatusCode = 404 then ((false, none), r.2)
    else ((false, some (non200 resp.StatusCode)), r.2)

/-- The method `Client.GetBlob`. -/
def GetBlob (c : Client ν) (hash : GoString) (w : Run ν) : (Blob × Option Error) × Run ν :=
  let r := c.connGet (c.getURL hash) w
  match r.1 with
  | Except.error err => (([], errorsErr (some err)), r.2)
  | Except.ok resp =>
    if resp.StatusCode = 404 then
      (([], errorsErr (some Error.ErrBlobNotFound)),
        { r.2 with printed := r.2.printed ++ [hash ++ " blob not found 404\n".toList] })
    else if resp.StatusCode ≠ 200 then
      (([], some (non200 resp.StatusCode)), r.2)
    else
      let tmp := getBuffer
      let cp := ioCopy tmp resp.Body
      match cp.2.2 with
      | some err => (([], errorsErr (some err)), r.2)
      | none =>
        let blob := goCopy (List.replicate cp.2.1 0) cp.1
        ((blob, none), { r.2 with MtrInBytesUdp := r.2.MtrInBytesUdp + blob.length })

/-- The loop of `Client.GetStream`, `k` iterations from index `i` on: the blob
of entry `i` is fetched and stored at `s[i+1]`, and the first error ends the
call. An index out of range panics. -/
def getStreamLoop (c : Client ν) (infos : List BlobInfo) :
    Nat → Nat → List Blob → Run ν → Outcome ((List Blob × Option Error) × Run ν)
  | 0, _, s, w => Outcome.ret ((s, none), w)
  | k + 1, i, s, w =>
    match infos.get? i with
    | none => Outcome.panic "index out of range"
    | some info =>
      let r := c.GetBlob (hexEncodeToString info.BlobHash) w
      if i + 1 < s.length then
        match r.1.2 with
        | some err => Outcome.ret (([], some err), r.2)
        | none => getStreamLoop c infos k (i + 1) (s.set (i + 1) r.1.1) r.2
      else Outcome.panic "index out of range"

/-- The method `Client.GetStream`. The decoder `sd.FromBlob` of the lbry.go
library is a parameter; the store `blobCache` is not used by the method. -/
def GetStream {σ : Type} (FromBlob : Blob → Except Error SDBlob) (c : Client ν)
    (sdHash : GoString) ( _blobCache : BlobStore σ) (w : Run ν) :
    Outcome ((List Blob × Option Error) × Run ν) :=
  let g := c.GetBlob sdHash w
  match g.1.2 with
  | some err => Outcome.ret (([], some err), g.2)
  | none =>
    match FromBlob g.1.1 with
    | Except.error err => Outcome.ret (([], some err), g.2)
    | Except.ok sd =>
      let s : List Blob := List.replicate ((sd.BlobInfos.length : Int) + 1 - 1).toNat []
      if 0 < s.length then
        getStreamLoop c sd.BlobInfos ((sd.BlobInfos.length : Int) - 1).toNat 0 (s.set 0 g.1.1) g.2
      else Outcome.panic "index out of range [0] with length 0"

/-- The blobs of the hashes fetched one after the other, up to the first
failure: the stream after the SD blob in the words of the spec. -/
def fetchInOrder (c : Client ν) : List GoString → Run ν → (List Blob × Option Error) × Run ν
  | [], w => (([], none), w)
  | h :: hs, w =>
    let r := c.GetBlob h w
    match r.1.2 with
    | some err => (([], some err), r.2)
    | none =>
      let rest := fetchInOrder c hs r.2
      match rest.1.2 with
      | some err => (([], some err), rest.2)
      | none => ((r.1.1 :: rest.1.1, none), rest.2)

end Client

/-- A connection that serves a fixed table: the response listed for the URL,
and status 404 without a body for any other URL. -/
def tableConn (table : List (GoString × Response)) : HttpConn Unit :=
  { Get := fun url s =>
      (match table.lookup url with
       | some resp => Except.ok resp
       | none => Except.ok { StatusCode := 404, Body := ([], none) }, s) }

/-- A stand-in for `sd.FromBlob`, the JSON decoder of the lbry.go library, to
run `GetStream` on concrete inputs: the first byte is the number of blob infos
and every further byte is the hash, of one byte, of a blob info. -/
def countedFromBlob (b : Blob) : Except Error SDBlob :=
  match b with
  | [] => Except.error (Error.other "unexpected end of JSON input")
  | n :: rest =>
    if rest.length = n.toNat then
      Except.ok { BlobInfos := rest.map (fun x =>
        { Length := 0, BlobNum := 0, BlobHash := [x], IV := [] }) }
    else Except.error (Error.other "invalid character")

/-- A peer at `peer:5568` that serves an SD blob naming no blob info under the
hash `5d`, an SD blob of three infos under `5e`, the blobs `aa` and `bb`, and
an error of the server for `cc`. -/
def peerClient : Client Unit :=
  { Timeout := 0
    ServerAddr := "peer:5568".toList
    conn := tableConn
      [("https://peer:5568/get/5d".toList, { StatusCode := 200, Body := ([0], none) }),
       ("https://peer:5568/get/5e".toList,
          { StatusCode := 200, Body := ([3, 0xaa, 0xbb, 0x00], none) }),
       ("https://peer:5568/get/aa".toList, { StatusCode := 200, Body := ([1, 2], none) }),
       ("https://peer:5568/get/bb".toList, { StatusCode := 200, Body := ([3], none) }),
       ("https://peer:5568/has/aa".toList, { StatusCode := 200, Body := ([], none) }),
       ("https://peer:5568/get/cc".toList, { StatusCode := 500, Body := ([], none) }),
       ("https://peer:5568/has/cc".toList, { StatusCode := 500, Body := ([], none) })] }

/-- The file tree is a tree: every entry lies in a directory, which is an
entry itself or one of the directories that exist without an entry. -/
def FS.wellFormed (fs : FS) : Bool :=
  fs.all (fun e =>
    match e.1.rev with
    | [] => true
    | _ :: rest => fs.node { rooted := e.1.rooted, rev := rest } == some Node.dir)

/-- Whatever a path names lies in a directory. -/
def FS.Tree (fs : FS) : Prop :=
  ∀ (rooted : Bool) (c : GoString) (rest : List GoString) (n : Node),
    fs.node { rooted := rooted, rev := c :: rest } = some n →
      fs.node { rooted := rooted, rev := rest } = some Node.dir

/-! ## Cleaning and joining paths -/

theorem splitSlash_ne_nil (s : GoString) : splitSlash s ≠ [] := by
  cases s with
  | nil => simp [splitSlash]
  | cons c cs =>
    rw [splitSlash]
    split
    · simp
    · split <;> simp

theorem splitSlash_append_slash (a b : GoString) :
    splitSlash (a ++ '/' :: b) = splitSlash a ++ splitSlash b := by
  induction a with
  | nil => simp [splitSlash]
  | cons c cs ih =>
    by_cases hc : c = '/'
    · simp [splitSlash, hc, ih]
    · have hne := splitSlash_ne_nil cs
      cases hs : splitSlash cs with
      | nil => exact absurd hs hne
      | cons x xs => simp [splitSlash, hc, ih, hs]

theorem splitSlash_of_no_slash (h : GoString) (hs : '/' ∉ h) : splitSlash h = [h] := by
  induction h with
  | nil => rfl
  | cons c cs ih =>
    have hc : c ≠ '/' := fun e => hs (by simp [e])
    have hcs : '/' ∉ cs := fun e => hs (List.mem_cons_of_mem _ e)
    simp [splitSlash, hc, ih hcs]

theorem splitSlash_no_slash (s : GoString) : ∀ e ∈ splitSlash s, '/' ∉ e := by
  induction s with
  | nil => simp [splitSlash]
  | cons c cs ih =>
    by_cases hc : c = '/'
    · intro e he
      simp [splitSlash, hc] at he
      rcases he with he | he
      · simp [he]
      · exact ih e he
    · have hne := splitSlash_ne_nil cs
      cases hs : splitSlash cs with
      | nil => exact absurd hs hne
      | cons x xs =>
        intro e he
        simp [splitSlash, hc, hs] at he
        rw [hs] at ih
        rcases he with he | he
        · subst he
          have hx := ih x (by simp)
          intro hm
          rcases List.mem_cons.1 hm with h1 | h1
          · exact hc h1.symm
          · exact hx h1
        · exact ih e (by simp [he])

theorem splitSlash_joinSlash (l : List GoString) (hne : l ≠ []) (hs : ∀ e ∈ l, '/' ∉ e) :
    splitSlash (joinSlash l) = l := by
  induction l with
  | nil => exact absurd rfl hne
  | cons e es ih =>
    cases es with
    | nil =>
      simp only [joinSlash]
      exact splitSlash_of_no_slash e (hs e (by simp))
    | cons e2 es2 =>
      simp only [joinSlash]
      rw [splitSlash_append_slash, splitSlash_of_no_slash e (hs e (by simp))]
      rw [ih (by simp) (fun x hx => hs x (List.mem_cons_of_mem _ hx))]
      rfl

theorem plainName_of_isHex (h : GoString) (hh : isHex h = true) : plainName h := by
  simp only [isHex, Bool.and_eq_true, Bool.not_eq_true', List.isEmpty_eq_false,
    List.all_eq_true] at hh
  obtain ⟨hne, hall⟩ := hh
  refine ⟨?_, ?_, ?_, ?_⟩
  · intro e; simp [e] at hne
  · intro hm
    have := hall _ hm
    revert this
    decide
  · intro e
    have := hall '.' (by simp [e])
    revert this
    decide
  · intro e
    have := hall '.' (by simp [e])
    revert this
    decide

theorem isHex_take (h : GoString) (n : Nat) (hh : isHex h = true) (hn : 0 < n) :
    isHex (h.take n) = true := by
  simp only [isHex, Bool.and_eq_true, Bool.not_eq_true', List.isEmpty_eq_false,
    List.all_eq_true] at hh ⊢
  obtain ⟨hne, hall⟩ := hh
  constructor
  · cases h with
    | nil => simp at hne
    | cons c cs =>
      cases n with
      | zero => omega
      | succ m => simp
  · intro c hc
    exact hall c (List.mem_of_mem_take hc)

theorem cleanStep_plain (rooted : Bool) (stack : List GoString) (e : GoString)
    (he : plainName e) : cleanStep rooted stack e = e :: stack := by
  obtain ⟨h1, _, h3, h4⟩ := he
  simp [cleanStep, h1, h3, h4]

theorem cleanStep_normal (rooted : Bool) (stack : List GoString) (e : GoString)
    (hs : NormalStack rooted stack) (he : '/' ∉ e) :
    NormalStack rooted (cleanStep rooted stack e) := by
  unfold cleanStep
  split
  · exact hs
  · rename_i h1
    have h1a : e ≠ [] := fun h => h1 (Or.inl h)
    have h1b : e ≠ ['.'] := fun h => h1 (Or.inr h)
    split
    · rename_i h2
      cases stack with
      | nil =>
        cases rooted with
        | true => simp [NormalStack]
        | false => simp [NormalStack, h2]
      | cons top rest =>
        simp only
        split
        · rename_i h3
          have hs2 := hs
          simp only [NormalStack] at hs2
          obtain ⟨_, _, _, h4, _⟩ := hs2
          have h5 := h4 h3
          refine ⟨h1a, he, h1b, ?_, hs⟩
          intro _
          refine ⟨h5.1, ?_⟩
          intro x hx
          rcases List.mem_cons.1 hx with hx | hx
          · rw [hx, h3]
          · exact h5.2 x hx
        · simp only [NormalStack] at hs
          exact hs.2.2.2.2
    · rename_i h2
      exact ⟨h1a, he, h1b, fun h => absurd h h2, hs⟩

theorem foldl_cleanStep_normal (rooted : Bool) (l : List GoString) (stack : List GoString)
    (hs : NormalStack rooted stack) (hl : ∀ e ∈ l, '/' ∉ e) :
    NormalStack rooted (l.foldl (cleanStep rooted) stack) := by
  induction l generalizing stack with
  | nil => exact hs
  | cons e es ih =>
    simp only [List.foldl_cons]
    exact ih _ (cleanStep_normal rooted stack e hs (hl e (by simp)))
      (fun x hx => hl x (List.mem_cons_of_mem _ hx))

/-- Every resolved path is in normal form. -/
theorem resolve_normal (s : GoString) : NormalStack (resolve s).rooted (resolve s).rev := by
  simp only [resolve]
  exact foldl_cleanStep_normal _ _ [] trivial (splitSlash_no_slash s)

theorem foldl_cleanStep_reverse (rooted : Bool) (stack : List GoString)
    (hs : NormalStack rooted stack) :
    stack.reverse.foldl (cleanStep rooted) [] = stack := by
  induction stack with
  | nil => rfl
  | cons e rest ih =>
    simp only [NormalStack] at hs
    obtain ⟨h1, _, h3, h4, h5⟩ := hs
    rw [List.reverse_cons, List.foldl_append, ih h5]
    simp only [List.foldl_cons, List.foldl_nil]
    by_cases h2 : e = ['.', '.']
    · obtain ⟨hr, hall⟩ := h4 h2
      cases rest with
      | nil => simp [cleanStep, h2, hr]
      | cons top rest2 =>
        have := hall top (by simp)
        simp [cleanStep, h2, this]
    · simp [cleanStep, h1, h3, h2]


theorem NormalStack.mem {rooted : Bool} {stack : List GoString}
    (hs : NormalStack rooted stack) : ∀ e ∈ stack, e ≠ [] ∧ '/' ∉ e := by
  induction stack with
  | nil => simp
  | cons x rest ih =>
    simp only [NormalStack] at hs
    intro e he
    rcases List.mem_cons.1 he with he | he
    · subst he
      exact ⟨hs.1, hs.2.1⟩
    · exact ih hs.2.2.2.2 e he

theorem joinSlash_head (l : List GoString) (hne : l ≠ [])
    (h : ∀ e ∈ l, e ≠ [] ∧ '/' ∉ e) :
    joinSlash l ≠ [] ∧ (joinSlash l).head? ≠ some '/' := by
  cases l with
  | nil => exact absurd rfl hne
  | cons e es =>
    obtain ⟨h1, h2⟩ := h e (by simp)
    cases e with
    | nil => exact absurd rfl h1
    | cons c cs =>
      have hc : c ≠ '/' := fun hc => h2 (by simp [hc])
      cases es with
      | nil => simp [joinSlash, hc]
      | cons e2 es2 => simp [joinSlash, hc]

/-- Resolving the string of a path in normal form gives the path back. -/
theorem resolve_render (p : FPath) (hn : NormalStack p.rooted p.rev) :
    resolve (render p) = p := by
  obtain ⟨rooted, rev⟩ := p
  simp only at hn
  have hmem := hn.mem
  cases rooted with
  | true =>
    by_cases hr : rev = []
    · subst hr
      rfl
    · have hne : rev.reverse ≠ [] := by simpa using hr
      have hsl : ∀ e ∈ rev.reverse, '/' ∉ e := fun e he => (hmem e (List.mem_reverse.1 he)).2
      simp only [render, resolve, if_true, List.head?_cons, beq_self_eq_true, splitSlash,
        List.foldl_cons, FPath.mk.injEq, true_and]
      rw [splitSlash_joinSlash _ hne hsl]
      have h0 : cleanStep true [] [] = [] := by simp [cleanStep]
      rw [h0]
      exact foldl_cleanStep_reverse true rev hn
  | false =>
    by_cases hr : rev = []
    · subst hr
      rfl
    · have hne : rev.reverse ≠ [] := by simpa using hr
      have hsl : ∀ e ∈ rev.reverse, '/' ∉ e := fun e he => (hmem e (List.mem_reverse.1 he)).2
      have hh := joinSlash_head rev.reverse hne (fun e he => hmem e (List.mem_reverse.1 he))
      have hb : ((joinSlash rev.reverse).head? == some '/') = false := by
        simpa using hh.2
      simp only [render, resolve, hr, if_false, Bool.false_eq_true, hb, FPath.mk.injEq, true_and]
      rw [splitSlash_joinSlash _ hne hsl]
      exact foldl_cleanStep_reverse false rev hn

theorem render_ne_nil (p : FPath) (hn : NormalStack p.rooted p.rev) : render p ≠ [] := by
  obtain ⟨rooted, rev⟩ := p
  simp only at hn
  cases rooted with
  | true => simp [render]
  | false =>
    by_cases hr : rev = []
    · simp [render, hr]
    · have hne : rev.reverse ≠ [] := by simpa using hr
      have hh := joinSlash_head rev.reverse hne (fun e he => hn.mem e (List.mem_reverse.1 he))
      simpa [render, hr] using hh.1

theorem resolve_pathClean (s : GoString) : resolve (pathClean s) = resolve s :=
  resolve_render _ (resolve_normal s)

theorem pathClean_ne_nil (s : GoString) : pathClean s ≠ [] :=
  render_ne_nil _ (resolve_normal s)

/-- Appending a slash and a plain name adds the name on top of the resolved path. -/
theorem resolve_append_plain (a h : GoString) (ha : a ≠ []) (hh : plainName h) :
    resolve (a ++ '/' :: h) = { rooted := (resolve a).rooted, rev := h :: (resolve a).rev } := by
  have hhead : (a ++ '/' :: h).head? = a.head? := by
    cases a with
    | nil => exact absurd rfl ha
    | cons c cs => rfl
  simp only [resolve, hhead, FPath.mk.injEq, true_and]
  rw [splitSlash_append_slash, splitSlash_of_no_slash h hh.2.1, List.foldl_append]
  simp only [List.foldl_cons, List.foldl_nil]
  exact cleanStep_plain _ _ _ hh

/-- The join of a non-empty path and a plain name resolves to the name in that path. -/
theorem resolve_pathJoin_plain (a h : GoString) (ha : a ≠ []) (hh : plainName h) :
    resolve (pathJoin a h) = { rooted := (resolve a).rooted, rev := h :: (resolve a).rev } ∧
      pathJoin a h ≠ [] := by
  have hne : h ≠ [] := hh.1
  simp only [pathJoin, ha, hne, if_false]
  exact ⟨(resolve_pathClean _).trans (resolve_append_plain a h ha hh), pathClean_ne_nil _⟩

namespace DiskStore

theorem dir_flat (d : DiskStore) (h : GoString)
    (hp : d.prefixLength ≤ 0 ∨ (h.length : Int) < d.prefixLength) : d.dir h = d.blobDir := by
  simp [dir, hp]

theorem resolve_dir_sharded (d : DiskStore) (h : GoString) (hroot : d.blobDir ≠ [])
    (hh : isHex h = true) (hp : 0 < d.prefixLength) (hl : d.prefixLength ≤ (h.length : Int)) :
    resolve (d.dir h) = { rooted := (resolve d.blobDir).rooted,
                          rev := h.take d.prefixLength.toNat :: (resolve d.blobDir).rev } ∧
      d.dir h ≠ [] := by
  have hc : ¬ (d.prefixLength ≤ 0 ∨ (h.length : Int) < d.prefixLength) := by omega
  simp only [dir, hc, if_false]
  exact resolve_pathJoin_plain _ _ hroot
    (plainName_of_isHex _ (isHex_take h _ hh (by omega)))

/-- Where `path` of a hex hash lies: in the root, or in the shard directory of the root. -/
theorem resolve_path (d : DiskStore) (h : GoString) (hroot : d.blobDir ≠ [])
    (hh : isHex h = true) :
    d.path h ≠ [] ∧
      ((d.prefixLength ≤ 0 ∨ (h.length : Int) < d.prefixLength) →
        resolve (d.path h) = { rooted := (resolve d.blobDir).rooted,
                               rev := h :: (resolve d.blobDir).rev }) ∧
      ((0 < d.prefixLength ∧ d.prefixLength ≤ (h.length : Int)) →
        resolve (d.path h) = { rooted := (resolve d.blobDir).rooted,
                               rev := h :: h.take d.prefixLength.toNat ::
                                 (resolve d.blobDir).rev }) := by
  have hplain := plainName_of_isHex h hh
  by_cases hp : d.prefixLength ≤ 0 ∨ (h.length : Int) < d.prefixLength
  · have hd := dir_flat d h hp
    have hj := resolve_pathJoin_plain d.blobDir h hroot hplain
    refine ⟨by simpa [path, hd] using hj.2, fun _ => by simpa [path, hd] using hj.1, ?_⟩
    intro hc
    omega
  · have hd := resolve_dir_sharded d h hroot hh (by omega) (by omega)
    have hj := resolve_pathJoin_plain (d.dir h) h hd.2 hplain
    refine ⟨hj.2, fun hc => absurd hc hp, fun _ => ?_⟩
    rw [path, hj.1, hd.1]

end DiskStore

/-! ## Lookups in the file tree -/

namespace FS

theorem node_set (fs : FS) (p q : FPath) (n : Node) :
    (fs.set p n).node q =
      if q = p then (if implicitDir p then some Node.dir else some n) else fs.node q := by
  by_cases hq : q = p
  · subst hq
    simp [node, set, List.lookup]
  · have hqb : (q == p) = false := by simpa using hq
    simp only [node, set, hq, if_false, List.lookup, hqb]
    congr 1
    induction fs with
    | nil => rfl
    | cons e es ih =>
      by_cases he : e.1 = p
      · simp [List.filter, he, List.lookup, hqb, ih]
      · have hne : (e.1 != p) = true := by simpa using he
        simp only [List.filter, hne, List.lookup]
        cases hqe : (q == e.1) with
        | true => rfl
        | false => exact ih

theorem node_erase (fs : FS) (p q : FPath) :
    (fs.erase p).node q =
      if q = p then (if implicitDir p then some Node.dir else none) else fs.node q := by
  by_cases hq : q = p
  · subst hq
    simp only [node, erase, if_true]
    congr 1
    induction fs with
    | nil => rfl
    | cons e es ih =>
      by_cases he : e.1 = q
      · simp [List.filter, he, ih]
      · have hne : (e.1 != q) = true := by simpa using he
        have hqe : (q == e.1) = false := by simpa using fun h : q = e.1 => he h.symm
        simp only [List.filter, hne, List.lookup, hqe]
        exact ih
  · have hqb : (q == p) = false := by simpa using hq
    simp only [node, erase, hq, if_false]
    congr 1
    induction fs with
    | nil => rfl
    | cons e es ih =>
      by_cases he : e.1 = p
      · simp [List.filter, he, List.lookup, hqb, ih]
      · have hne : (e.1 != p) = true := by simpa using he
        simp only [List.filter, hne, List.lookup]
        cases hqe : (q == e.1) with
        | true => rfl
        | false => exact ih

/-- Path resolution depends only on the entries along the path. -/
theorem lookupPath_congr (fs1 fs2 : FS) (rooted : Bool) (l : List GoString)
    (h : ∀ t, t <:+ l → fs1.node { rooted := rooted, rev := t } =
      fs2.node { rooted := rooted, rev := t }) :
    fs1.lookupPath rooted l = fs2.lookupPath rooted l := by
  induction l with
  | nil => rfl
  | cons c rest ih =>
    have ih2 := ih (fun t ht => h t (ht.trans (List.suffix_cons c rest)))
    simp only [lookupPath, ih2, h (c :: rest) (List.suffix_refl _)]

theorem lookupPath_cons_ok (fs : FS) (rooted : Bool) (c : GoString) (rest : List GoString)
    (n : Node) (h : fs.lookupPath rooted (c :: rest) = Except.ok n) :
    fs.lookupPath rooted rest = Except.ok Node.dir ∧
      fs.node { rooted := rooted, rev := c :: rest } = some n := by
  simp only [lookupPath] at h
  split at h
  · cases h
  · cases h
  · rename_i hd
    split at h
    · cases h
    · rename_i hn
      cases h
      exact ⟨hd, hn⟩

theorem lookupPath_cons_of (fs : FS) (rooted : Bool) (c : GoString) (rest : List GoString)
    (hd : fs.lookupPath rooted rest = Except.ok Node.dir) :
    fs.lookupPath rooted (c :: rest) =
      match fs.node { rooted := rooted, rev := c :: rest } with
      | none => Except.error Errno.ENOENT
      | some n => Except.ok n := by
  simp only [lookupPath, hd]

theorem not_suffix_cons_self (c : GoString) (rest t : List GoString) (ht : t <:+ rest) :
    t ≠ c :: rest := by
  intro h
  have := ht.length_le
  rw [h] at this
  simp at this

end FS

theorem entryOwned_file (root : FPath) (P : Int) (rooted : Bool) (l : List GoString)
    (data : Blob) :
    entryOwned root P ({ rooted := rooted, rev := l }, Node.file data) = true ↔
      (rooted = root.rooted →
        ¬ l <:+ root.rev ∧ ∀ x, l = x :: root.rev → ¬ (0 < P ∧ (x.length : Int) = P)) := by
  cases l with
  | nil => simp [entryOwned]
  | cons x rest =>
    simp only [entryOwned, Bool.or_eq_true, bne_iff_ne, ne_eq, Bool.and_eq_true,
      Bool.not_eq_true', decide_eq_false_iff_not, Bool.and_eq_false_imp, decide_eq_true_eq,
      List.cons.injEq, and_imp]
    constructor
    · intro h hr
      rcases h with h | h
      · exact absurd hr h
      · refine ⟨h.1, ?_⟩
        intro y hy hrest hP
        subst hy
        exact h.2 hrest hP.1 hP.2
    · intro h
      by_cases hr : rooted = root.rooted
      · right
        obtain ⟨h1, h2⟩ := h hr
        exact ⟨h1, fun hrest hP hlen => h2 x rfl hrest ⟨hP, hlen⟩⟩
      · left
        exact hr

theorem entryOwned_dir (root : FPath) (P : Int) (rooted : Bool) (l : List GoString) :
    entryOwned root P ({ rooted := rooted, rev := l }, Node.dir) = true ↔
      (rooted = root.rooted →
        (∀ x, l = x :: root.rev → 0 < P ∧ (x.length : Int) = P) ∧
          ∀ x y, l ≠ y :: x :: root.rev) := by
  cases l with
  | nil => simp [entryOwned]
  | cons x rest =>
    cases rest with
    | nil =>
      simp only [entryOwned, Bool.or_eq_true, bne_iff_ne, ne_eq, Bool.and_eq_true,
        Bool.not_eq_true', decide_eq_false_iff_not, decide_eq_true_eq, and_true,
        List.cons.injEq, and_imp, not_and]
      constructor
      · intro h hr
        rcases h with h | h
        · exact absurd hr h
        · refine ⟨?_, ?_⟩
          · intro y hy hrest
            subst hy
            rcases h with h | h
            · exact absurd hrest h
            · exact h
          · intro a b _ hb
            cases hb
      · intro h
        by_cases hr : rooted = root.rooted
        · right
          by_cases hrest : [] = root.rev
          · right
            exact (h hr).1 x rfl hrest
          · left
            exact hrest
        · left
          exact hr
    | cons x2 rest2 =>
      simp only [entryOwned, Bool.or_eq_true, bne_iff_ne, ne_eq, Bool.and_eq_true,
        Bool.not_eq_true', decide_eq_false_iff_not, decide_eq_true_eq,
        List.cons.injEq, and_imp, not_and]
      constructor
      · intro h hr
        rcases h with h | h
        · exact absurd hr h
        · refine ⟨?_, ?_⟩
          · intro y hy hrest
            subst hy
            rcases h.1 with h1 | h1
            · exact absurd hrest h1
            · exact h1
          · intro a b _ _ hb
            exact h.2 hb
      · intro h
        by_cases hr : rooted = root.rooted
        · right
          obtain ⟨h1, h2⟩ := h hr
          refine ⟨?_, fun hb => h2 x2 x rfl rfl hb⟩
          by_cases hrest : x2 :: rest2 = root.rev
          · right
            exact h1 x rfl hrest
          · left
            exact hrest
        · left
          exact hr

namespace FS

theorem mem_of_lookup (fs : FS) (q : FPath) (n : Node) (h : fs.lookup q = some n) :
    (q, n) ∈ fs := by
  induction fs with
  | nil => simp [List.lookup] at h
  | cons e es ih =>
    obtain ⟨k, v⟩ := e
    simp only [List.lookup] at h
    cases hq : (q == k) with
    | true =>
      simp only [hq] at h
      have : q = k := by simpa using hq
      cases h
      simp [this]
    | false =>
      simp only [hq] at h
      exact List.mem_cons_of_mem _ (ih h)

theorem mem_of_node (fs : FS) (q : FPath) (n : Node) (hi : implicitDir q = false)
    (h : fs.node q = some n) : (q, n) ∈ fs := by
  simp only [node, hi, Bool.false_eq_true, if_false] at h
  exact mem_of_lookup fs q n h

theorem forall_set (fs : FS) (p : FPath) (n : Node) (Q : FPath × Node → Prop)
    (h : ∀ e ∈ fs, Q e) (hn : Q (p, n)) : ∀ e ∈ fs.set p n, Q e := by
  intro e he
  simp only [set, List.mem_cons, List.mem_filter] at he
  rcases he with he | he
  · rw [he]
    exact hn
  · exact h e he.1

theorem forall_erase (fs : FS) (p : FPath) (Q : FPath × Node → Prop)
    (h : ∀ e ∈ fs, Q e) : ∀ e ∈ fs.erase p, Q e := by
  intro e he
  simp only [erase, List.mem_filter] at he
  exact h e he.1

theorem forall_mkdirAllAux (fs : FS) (rooted : Bool) (l : List GoString)
    (Q : FPath × Node → Prop) (h : ∀ e ∈ fs, Q e)
    (hd : ∀ t, t <:+ l → Q ({ rooted := rooted, rev := t }, Node.dir)) :
    ∀ e ∈ (fs.mkdirAllAux rooted l).2, Q e := by
  induction l with
  | nil => simpa [mkdirAllAux] using h
  | cons c rest ih =>
    have ih2 := ih (fun t ht => hd t (ht.trans (List.suffix_cons c rest)))
    simp only [mkdirAllAux]
    split
    · exact h
    · exact h
    · split
      · rename_i e fs1 heq
        rw [heq] at ih2
        exact ih2
      · rename_i fs1 heq
        rw [heq] at ih2
        simp only at ih2
        split
        · exact forall_set fs1 _ _ Q ih2 (hd _ (List.suffix_refl _))
        · exact ih2
        · exact ih2

theorem lookupPath_no_file (fs : FS) (rooted : Bool) (l : List GoString)
    (h : ∀ t, t <:+ l → ∀ data, fs.node { rooted := rooted, rev := t } ≠ some (Node.file data)) :
    fs.lookupPath rooted l = Except.ok Node.dir ∨
      fs.lookupPath rooted l = Except.error Errno.ENOENT := by
  induction l with
  | nil => left; rfl
  | cons c rest ih =>
    rcases ih (fun t ht => h t (ht.trans (List.suffix_cons c rest))) with h1 | h1
    · rw [lookupPath_cons_of fs rooted c rest h1]
      cases hn : fs.node { rooted := rooted, rev := c :: rest } with
      | none => right; rfl
      | some n =>
        cases n with
        | dir => left; rfl
        | file data => exact absurd hn (h _ (List.suffix_refl _) data)
    · right
      simp only [lookupPath, h1]

/-- Making a directory succeeds when no entry on the way is a regular file; the
directory exists afterwards and entries off the way are untouched. -/
theorem mkdirAllAux_ok (fs : FS) (rooted : Bool) (l : List GoString)
    (h : ∀ t, t <:+ l → ∀ data, fs.node { rooted := rooted, rev := t } ≠ some (Node.file data)) :
    (fs.mkdirAllAux rooted l).1 = none ∧
      (fs.mkdirAllAux rooted l).2.lookupPath rooted l = Except.ok Node.dir ∧
      ∀ q : FPath, ¬ (q.rooted = rooted ∧ q.rev <:+ l) →
        (fs.mkdirAllAux rooted l).2.node q = fs.node q := by
  induction l with
  | nil => simp [mkdirAllAux, lookupPath]
  | cons c rest ih =>
    obtain ⟨ih1, ih2, ih3⟩ := ih (fun t ht => h t (ht.trans (List.suffix_cons c rest)))
    have hp : ¬ (({ rooted := rooted, rev := c :: rest } : FPath).rooted = rooted ∧
        ({ rooted := rooted, rev := c :: rest } : FPath).rev <:+ rest) := by
      intro hc
      exact not_suffix_cons_self c rest _ hc.2 rfl
    have hnode := ih3 _ hp
    simp only [mkdirAllAux]
    cases hl : fs.lookupPath rooted (c :: rest) with
    | ok n =>
      cases n with
      | dir => exact ⟨rfl, hl, fun _ _ => rfl⟩
      | file data =>
        exact absurd (lookupPath_cons_ok fs rooted c rest _ hl).2 (h _ (List.suffix_refl _) data)
    | error e =>
      simp only
      cases hm : fs.mkdirAllAux rooted rest with
      | mk e1 fs1 =>
        rw [hm] at ih1 ih2 ih3 hnode
        simp only at ih1 ih2 ih3 hnode
        subst ih1
        simp only
        have hframe : ∀ q : FPath, ¬ (q.rooted = rooted ∧ q.rev <:+ c :: rest) →
            fs1.node q = fs.node q := by
          intro q hq
          apply ih3
          intro hc
          exact hq ⟨hc.1, hc.2.trans (List.suffix_cons c rest)⟩
        cases hn : fs1.node { rooted := rooted, rev := c :: rest } with
        | none =>
          simp only
          refine ⟨by trivial, ?_, ?_⟩
          · have hcongr : (fs1.set { rooted := rooted, rev := c :: rest } Node.dir).lookupPath
                rooted rest = fs1.lookupPath rooted rest := by
              apply lookupPath_congr
              intro t ht
              rw [node_set]
              have : ({ rooted := rooted, rev := t } : FPath) ≠
                  { rooted := rooted, rev := c :: rest } := by
                intro e
                injection e with _ e2
                exact not_suffix_cons_self c rest t ht e2
              simp [this]
            rw [lookupPath_cons_of _ _ _ _ (hcongr.trans ih2), node_set]
            simp only [if_true, ite_self]
          · intro q hq
            rw [node_set]
            have : q ≠ { rooted := rooted, rev := c :: rest } := by
              intro e
              apply hq
              rw [e]
              exact ⟨rfl, List.suffix_refl _⟩
            simp only [this, if_false]
            exact hframe q hq
        | some n =>
          cases n with
          | dir =>
            simp only
            refine ⟨by trivial, ?_, hframe⟩
            rw [lookupPath_cons_of _ _ _ _ ih2, hn]
          | file data =>
            rw [hnode] at hn
            exact absurd hn (h _ (List.suffix_refl _) data)

end FS

theorem errorsErr_osError_eq_none (e : Option Errno) :
    errorsErr (osError e) = none ↔ e = none := by
  cases e <;> simp [errorsErr, osError]

theorem ioutilWriteFile_error_any_data (fs : FS) (name : GoString) (a b : Blob) :
    (ioutilWriteFile fs name a).1 = (ioutilWriteFile fs name b).1 := by
  unfold ioutilWriteFile
  split
  · rfl
  · split
    · rfl
    · split
      · rfl
      · rfl
      · split <;> rfl

theorem ioutilWriteFile_ok (fs : FS) (name : GoString) (data : Blob)
    (h : (ioutilWriteFile fs name data).1 = none) :
    name ≠ [] ∧ (resolve name).rev ≠ [] ∧
      (ioutilWriteFile fs name data).2 = fs.set (resolve name) (Node.file data) ∧
      fs.lookupPath (resolve name).rooted (resolve name).rev.tail = Except.ok Node.dir ∧
      fs.node (resolve name) ≠ some Node.dir := by
  unfold ioutilWriteFile at h ⊢
  by_cases hn : name = []
  · simp [hn] at h
  · simp only [hn, if_false] at h ⊢
    cases hr : (resolve name).rev with
    | nil => simp [hr] at h
    | cons c rest =>
      simp only [hr] at h ⊢
      cases hl : fs.lookupPath (resolve name).rooted rest with
      | error e => simp [hl] at h
      | ok nd =>
        cases nd with
        | file x => simp [hl] at h
        | dir =>
          simp only [hl] at h ⊢
          cases hnode : fs.node (resolve name) with
          | none => simp [hn, hl]
          | some nd2 =>
            cases nd2 with
            | file x => simp [hn, hl]
            | dir => simp [hnode] at h

/-- After a write that succeeds, the path names a regular file with the data. -/
theorem osStat_after_write (fs : FS) (name : GoString) (data : Blob)
    (h : (ioutilWriteFile fs name data).1 = none) :
    osStat (ioutilWriteFile fs name data).2 name = Except.ok (Node.file data) := by
  obtain ⟨hn, hr, hfs, hl, hnd⟩ := ioutilWriteFile_ok fs name data h
  rw [hfs]
  simp only [osStat, hn, if_false]
  cases hrev : (resolve name).rev with
  | nil => exact absurd hrev hr
  | cons c rest =>
    rw [hrev] at hl
    simp only [List.tail_cons] at hl
    have hp : resolve name = { rooted := (resolve name).rooted, rev := c :: rest } := by
      rw [← hrev]
    have hcongr : (fs.set (resolve name) (Node.file data)).lookupPath (resolve name).rooted rest
        = fs.lookupPath (resolve name).rooted rest := by
      apply FS.lookupPath_congr
      intro t ht
      rw [FS.node_set]
      have : ({ rooted := (resolve name).rooted, rev := t } : FPath) ≠ resolve name := by
        intro e
        rw [hp] at e
        injection e with _ e2
        exact FS.not_suffix_cons_self c rest t ht e2
      simp [this]
    rw [FS.lookupPath_cons_of _ _ _ _ (hcongr.trans hl), ← hp, FS.node_set]
    have himp : FS.implicitDir (resolve name) = false := by
      cases hi : FS.implicitDir (resolve name) with
      | false => rfl
      | true =>
        exfalso
        apply hnd
        simp [FS.node, hi]
    simp [himp]

namespace DiskStore

theorem initOnce_ok (d : DiskStore) (fs : FS) (h : (d.initOnce fs).1 = none) :
    (d.initOnce fs).2.1 = { d with initialized := true } := by
  unfold initOnce at h ⊢
  cases hi : d.initialized with
  | true =>
    obtain ⟨a, b, c⟩ := d
    simp only at hi
    simp [hi]
  | false =>
    simp only [hi, Bool.false_eq_true, if_false] at h ⊢
    cases hn : (d.ensureDirExists d.blobDir fs).1 with
    | some err => simp [hn] at h
    | none => simp

theorem initOnce_initialized (d : DiskStore) (fs : FS) (h : d.initialized = true) :
    d.initOnce fs = (none, (d, fs)) := by
  simp [initOnce, h]

theorem Put_ok (d : DiskStore) (hash : GoString) (blob : Blob) (fs : FS)
    (h : (d.Put hash blob fs).1 = none) :
    (d.initOnce fs).1 = none ∧
      (osMkdirAll (d.initOnce fs).2.2 (d.dir hash)).1 = none ∧
      (ioutilWriteFile (osMkdirAll (d.initOnce fs).2.2 (d.dir hash)).2 (d.path hash) blob).1
        = none ∧
      (d.Put hash blob fs).2 = ({ d with initialized := true },
        (ioutilWriteFile (osMkdirAll (d.initOnce fs).2.2 (d.dir hash)).2
          (d.path hash) blob).2) := by
  unfold Put at h ⊢
  cases hi : (d.initOnce fs).1 with
  | some err => simp [hi] at h
  | none =>
    have hd := initOnce_ok d fs hi
    simp only [hi, hd, ensureDirExists] at h ⊢
    have hdir : ({ d with initialized := true } : DiskStore).dir hash = d.dir hash := rfl
    have hpath : ({ d with initialized := true } : DiskStore).path hash = d.path hash := rfl
    simp only [hdir, hpath] at h ⊢
    cases hm : (osMkdirAll (d.initOnce fs).2.2 (d.dir hash)).1 with
    | some e => simp [hm, errorsErr, osError] at h
    | none =>
      simp only [hm, osError, Option.map_none', errorsErr] at h ⊢
      exact ⟨trivial, trivial, (errorsErr_osError_eq_none _).1 h, trivial⟩

theorem Get_of_file (d : DiskStore) (hash : GoString) (blob : Blob) (fs : FS)
    (hi : d.initialized = true)
    (hs : osStat fs (d.path hash) = Except.ok (Node.file blob)) :
    d.Get hash fs = ((blob, none), (d, fs)) := by
  simp [Get, initOnce_initialized d fs hi, ioutilReadFile, hs]

theorem Has_of_stat_ok (d : DiskStore) (hash : GoString) (n : Node) (fs : FS)
    (hi : d.initialized = true)
    (hs : osStat fs (d.path hash) = Except.ok n) :
    d.Has hash fs = ((true, none), (d, fs)) := by
  simp [Has, initOnce_initialized d fs hi, hs]

/-- After a `Put` that succeeds, `Get` returns the blob. -/
theorem Put_error_any_blob (d : DiskStore) (hash : GoString) (blob blob2 : Blob) (fs : FS) :
    (d.Put hash blob fs).1 = (d.Put hash blob2 fs).1 := by
  simp only [Put]
  split
  · rfl
  · split
    · rfl
    · simp only [ioutilWriteFile_error_any_data _ _ blob blob2]

theorem Get_after_Put (d : DiskStore) (hash : GoString) (blob : Blob) (fs : FS)
    (h : (d.Put hash blob fs).1 = none) :
    ((d.Put hash blob fs).2.1.Get hash (d.Put hash blob fs).2.2).1 = (blob, none) := by
  obtain ⟨_, _, hw, hst⟩ := Put_ok d hash blob fs h
  rw [hst]
  have hs := osStat_after_write _ _ _ hw
  have hpath : ({ d with initialized := true } : DiskStore).path hash = d.path hash := rfl
  rw [Get_of_file _ hash blob _ rfl (by rw [hpath]; exact hs)]

/-- After a `Put` that succeeds, `Has` is true. -/
theorem Has_after_Put (d : DiskStore) (hash : GoString) (blob : Blob) (fs : FS)
    (h : (d.Put hash blob fs).1 = none) :
    ((d.Put hash blob fs).2.1.Has hash (d.Put hash blob fs).2.2).1 = (true, none) := by
  obtain ⟨_, _, hw, hst⟩ := Put_ok d hash blob fs h
  rw [hst]
  have hs := osStat_after_write _ _ _ hw
  have hpath : ({ d with initialized := true } : DiskStore).path hash = d.path hash := rfl
  rw [Has_of_stat_ok _ hash _ _ rfl (by rw [hpath]; exact hs)]

end DiskStore

namespace DiskStore

/-- After a `Get` that succeeds, `Has` is true. -/
theorem Has_after_Get (d : DiskStore) (hash : GoString) (fs : FS)
    (h : (d.Get hash fs).1.2 = none) :
    ((d.Get hash fs).2.1.Has hash (d.Get hash fs).2.2).1 = (true, none) := by
  unfold Get at h ⊢
  cases hi : (d.initOnce fs).1 with
  | some err => simp [hi] at h
  | none =>
    have hd := initOnce_ok d fs hi
    have hpath : ({ d with initialized := true } : DiskStore).path hash = d.path hash := rfl
    simp only [hi, hd, hpath] at h ⊢
    cases hs : osStat (d.initOnce fs).2.2 (d.path hash) with
    | error e =>
      simp only [ioutilReadFile, hs] at h
      split at h <;> simp [errorsErr] at h
    | ok n =>
      cases n with
      | dir => simp [ioutilReadFile, hs, errorsErr, osIsNotExist] at h
      | file data =>
        have hinit : (d.initOnce fs).2.1.initialized = true := by rw [hd]
        have hp2 : (d.initOnce fs).2.1.path hash = d.path hash := by rw [hd]; rfl
        simp only [ioutilReadFile, hs]
        rw [Has_of_stat_ok (d.initOnce fs).2.1 hash (Node.file data) (d.initOnce fs).2.2 hinit
          (by rw [hp2]; exact hs)]

theorem asBlobStore_roundTrip : RoundTrip asBlobStore := by
  intro hash blob st h
  exact Get_after_Put st.1 hash blob st.2 h

theorem asBlobStore_hasConsistent : HasConsistent asBlobStore :=
  ⟨fun hash blob st h => Has_after_Put st.1 hash blob st.2 h,
   fun hash st h => Has_after_Get st.1 hash st.2 h⟩

end DiskStore

/-! ## A file tree that the disk store owns -/

theorem FS.implicitDir_cons_plain (rooted : Bool) (h : GoString) (rest : List GoString)
    (hp : plainName h) : FS.implicitDir { rooted := rooted, rev := h :: rest } = false := by
  simp [FS.implicitDir, hp.2.2.2]

theorem length_take_prefix (h : GoString) (P : Int) (hp : 0 < P) (hl : P ≤ (h.length : Int)) :
    ((h.take P.toNat).length : Int) = P := by
  rw [List.length_take]
  omega

namespace DiskStore

theorem ownsTree_iff (d : DiskStore) (fs : FS) :
    d.ownsTree fs = true ↔
      d.blobDir ≠ [] ∧ ∀ e ∈ fs, entryOwned (resolve d.blobDir) d.prefixLength e = true := by
  simp [ownsTree, List.all_eq_true]

/-- The directory and the path of a hex hash, resolved. -/
theorem path_shape (d : DiskStore) (h : GoString) (hroot : d.blobDir ≠ [])
    (hh : isHex h = true) :
    d.dir h ≠ [] ∧ d.path h ≠ [] ∧
      (resolve (d.dir h)).rooted = (resolve d.blobDir).rooted ∧
      resolve (d.path h) = { rooted := (resolve d.blobDir).rooted,
                             rev := h :: (resolve (d.dir h)).rev } ∧
      (((resolve (d.dir h)).rev = (resolve d.blobDir).rev ∧
          (d.prefixLength ≤ 0 ∨ (h.length : Int) < d.prefixLength)) ∨
        ((resolve (d.dir h)).rev = h.take d.prefixLength.toNat :: (resolve d.blobDir).rev ∧
          0 < d.prefixLength ∧ d.prefixLength ≤ (h.length : Int))) := by
  obtain ⟨hne, hflat, hshard⟩ := resolve_path d h hroot hh
  by_cases hp : d.prefixLength ≤ 0 ∨ (h.length : Int) < d.prefixLength
  · have hd := dir_flat d h hp
    refine ⟨by rw [hd]; exact hroot, hne, by rw [hd], ?_, Or.inl ⟨by rw [hd], hp⟩⟩
    rw [hflat hp, hd]
  · have hp2 : 0 < d.prefixLength ∧ d.prefixLength ≤ (h.length : Int) := by omega
    have hd := resolve_dir_sharded d h hroot hh hp2.1 hp2.2
    refine ⟨hd.2, hne, by rw [hd.1], ?_, Or.inr ⟨by rw [hd.1], hp2⟩⟩
    rw [hshard hp2, hd.1]

theorem owned_root_chain (d : DiskStore) (fs : FS) (ho : d.ownsTree fs = true) :
    ∀ t, t <:+ (resolve d.blobDir).rev → ∀ data,
      fs.node { rooted := (resolve d.blobDir).rooted, rev := t } ≠ some (Node.file data) := by
  intro t ht data hn
  obtain ⟨_, hall⟩ := (ownsTree_iff d fs).1 ho
  cases hi : FS.implicitDir { rooted := (resolve d.blobDir).rooted, rev := t } with
  | true => simp [FS.node, hi] at hn
  | false =>
    have hmem := FS.mem_of_node fs _ _ hi hn
    exact ((entryOwned_file _ _ _ _ _).1 (hall _ hmem) rfl).1 ht

theorem owned_dir_chain (d : DiskStore) (h : GoString) (fs : FS) (ho : d.ownsTree fs = true)
    (hh : isHex h = true) :
    ∀ t, t <:+ (resolve (d.dir h)).rev → ∀ data,
      fs.node { rooted := (resolve d.blobDir).rooted, rev := t } ≠ some (Node.file data) := by
  obtain ⟨hroot, hall⟩ := (ownsTree_iff d fs).1 ho
  obtain ⟨_, _, _, _, hcase⟩ := path_shape d h hroot hh
  rcases hcase with ⟨hrev, _⟩ | ⟨hrev, hp, hl⟩
  · rw [hrev]
    exact owned_root_chain d fs ho
  · rw [hrev]
    intro t ht data hn
    rcases List.suffix_cons_iff.1 ht with ht | ht
    · subst ht
      have hplain := plainName_of_isHex _ (isHex_take h _ hh (by omega : 0 < d.prefixLength.toNat))
      have hi := FS.implicitDir_cons_plain (resolve d.blobDir).rooted _ (resolve d.blobDir).rev hplain
      have hmem := FS.mem_of_node fs _ _ hi hn
      exact ((entryOwned_file _ _ _ _ _).1 (hall _ hmem) rfl).2 _ rfl
        ⟨hp, length_take_prefix h _ hp hl⟩
    · exact owned_root_chain d fs ho t ht data hn

theorem owned_path_not_dir (d : DiskStore) (h : GoString) (fs : FS)
    (ho : d.ownsTree fs = true) (hh : isHex h = true) :
    fs.node (resolve (d.path h)) ≠ some Node.dir := by
  obtain ⟨hroot, hall⟩ := (ownsTree_iff d fs).1 ho
  obtain ⟨_, _, _, hpath, hcase⟩ := path_shape d h hroot hh
  have hplain := plainName_of_isHex h hh
  rw [hpath]
  intro hn
  have hi := FS.implicitDir_cons_plain (resolve d.blobDir).rooted h (resolve (d.dir h)).rev hplain
  have hmem := FS.mem_of_node fs _ _ hi hn
  have hown := (entryOwned_dir _ _ _ _).1 (hall _ hmem) rfl
  rcases hcase with ⟨hrev, hp⟩ | ⟨hrev, _, _⟩
  · have := hown.1 h (by rw [hrev])
    omega
  · exact hown.2 _ _ (by rw [hrev])

theorem owned_root_entries (d : DiskStore) :
    ∀ t, t <:+ (resolve d.blobDir).rev →
      entryOwned (resolve d.blobDir) d.prefixLength
        ({ rooted := (resolve d.blobDir).rooted, rev := t }, Node.dir) = true := by
  intro t ht
  rw [entryOwned_dir]
  intro _
  have hlen := ht.length_le
  constructor
  · intro x hx
    rw [hx] at hlen
    simp at hlen
  · intro x y hx
    rw [hx] at hlen
    simp at hlen
    omega

theorem owned_dir_entries (d : DiskStore) (h : GoString) (hroot : d.blobDir ≠ [])
    (hh : isHex h = true) :
    ∀ t, t <:+ (resolve (d.dir h)).rev →
      entryOwned (resolve d.blobDir) d.prefixLength
        ({ rooted := (resolve d.blobDir).rooted, rev := t }, Node.dir) = true := by
  obtain ⟨_, _, _, _, hcase⟩ := path_shape d h hroot hh
  rcases hcase with ⟨hrev, _⟩ | ⟨hrev, hp, hl⟩
  · rw [hrev]
    exact owned_root_entries d
  · rw [hrev]
    intro t ht
    rcases List.suffix_cons_iff.1 ht with ht | ht
    · subst ht
      rw [entryOwned_dir]
      intro _
      constructor
      · intro x hx
        injection hx with hx _
        rw [← hx]
        exact ⟨hp, length_take_prefix h _ hp hl⟩
      · intro x y hx
        have := congrArg List.length hx
        simp at this
    · exact owned_root_entries d t ht

theorem owned_file_entry (d : DiskStore) (h : GoString) (blob : Blob) (hroot : d.blobDir ≠ [])
    (hh : isHex h = true) :
    entryOwned (resolve d.blobDir) d.prefixLength (resolve (d.path h), Node.file blob) = true := by
  obtain ⟨_, _, _, hpath, hcase⟩ := path_shape d h hroot hh
  rw [hpath, entryOwned_file]
  intro _
  rcases hcase with ⟨hrev, hp⟩ | ⟨hrev, _, _⟩
  · rw [hrev]
    constructor
    · intro hs
      have := hs.length_le
      simp at this
    · intro x hx
      injection hx with hx _
      rw [← hx]
      omega
  · rw [hrev]
    constructor
    · intro hs
      have := hs.length_le
      simp at this
      omega
    · intro x hx
      have := congrArg List.length hx
      simp at this

end DiskStore

/-! ## The disk store on a file tree that it owns -/

theorem ioutilWriteFile_succeeds (fs : FS) (name : GoString) (data : Blob) (c : GoString)
    (rest : List GoString) (hn : name ≠ []) (hr : (resolve name).rev = c :: rest)
    (hl : fs.lookupPath (resolve name).rooted rest = Except.ok Node.dir)
    (hnd : fs.node (resolve name) ≠ some Node.dir) :
    ioutilWriteFile fs name data = (none, fs.set (resolve name) (Node.file data)) := by
  simp only [ioutilWriteFile, hn, if_false, hr, hl]

/-- After a remove that succeeds, the path names nothing. -/
theorem osStat_after_remove (fs : FS) (name : GoString) (h : (osRemove fs name).1 = none) :
    (osRemove fs name).2 = fs.erase (resolve name) ∧
      osStat (osRemove fs name).2 name = Except.error Errno.ENOENT := by
  have hn : name ≠ [] := by
    intro hn
    simp [osRemove, osStat, hn] at h
  have key : ∀ n, osStat fs name = Except.ok n → FS.implicitDir (resolve name) = false →
      osStat (fs.erase (resolve name)) name = Except.error Errno.ENOENT := by
    intro n hs hi
    simp only [osStat, hn, if_false] at hs ⊢
    cases hrev : (resolve name).rev with
    | nil =>
      simp [FS.implicitDir, hrev] at hi
    | cons c rest =>
      rw [hrev] at hs
      obtain ⟨hl, _⟩ := FS.lookupPath_cons_ok fs _ c rest n hs
      have hp : resolve name = { rooted := (resolve name).rooted, rev := c :: rest } := by
        rw [← hrev]
      have hcongr : (fs.erase (resolve name)).lookupPath (resolve name).rooted rest
          = fs.lookupPath (resolve name).rooted rest := by
        apply FS.lookupPath_congr
        intro t ht
        rw [FS.node_erase]
        have : ({ rooted := (resolve name).rooted, rev := t } : FPath) ≠ resolve name := by
          intro e
          rw [hp] at e
          injection e with _ e2
          exact FS.not_suffix_cons_self c rest t ht e2
        simp [this]
      rw [FS.lookupPath_cons_of _ _ _ _ (hcongr.trans hl), ← hp, FS.node_erase]
      simp [hi]
  unfold osRemove at h ⊢
  cases hs : osStat fs name with
  | error e => simp [hs] at h
  | ok n =>
    cases n with
    | file data =>
      simp only
      refine ⟨by trivial, key _ hs ?_⟩
      cases hi : FS.implicitDir (resolve name) with
      | false => rfl
      | true =>
        exfalso
        simp only [osStat, hn, if_false] at hs
        cases hrev : (resolve name).rev with
        | nil =>
          rw [hrev] at hs
          simp [FS.lookupPath] at hs
        | cons c rest =>
          rw [hrev] at hs
          have h2 := (FS.lookupPath_cons_ok fs _ c rest _ hs).2
          rw [← hrev] at h2
          simp [FS.node, hi] at h2
    | dir =>
      simp only [hs] at h ⊢
      cases hi : FS.implicitDir (resolve name) with
      | true => simp [hi] at h
      | false =>
        simp only [hi, Bool.false_eq_true, if_false] at h ⊢
        cases hc : fs.hasChild (resolve name) with
        | true => simp [hc] at h
        | false =>
          simp only [Bool.false_eq_true, if_false]
          exact ⟨by trivial, key _ hs hi⟩

namespace DiskStore

theorem Has_of_enoent (d : DiskStore) (hash : GoString) (fs : FS) (hi : d.initialized = true)
    (hs : osStat fs (d.path hash) = Except.error Errno.ENOENT) :
    d.Has hash fs = ((false, none), (d, fs)) := by
  simp [Has, initOnce_initialized d fs hi, hs, osIsNotExist]

theorem Delete_of_enoent (d : DiskStore) (hash : GoString) (fs : FS) (hi : d.initialized = true)
    (hs : osStat fs (d.path hash) = Except.error Errno.ENOENT) :
    d.Delete hash fs = (none, (d, fs)) := by
  simp [Delete, initOnce_initialized d fs hi, Has_of_enoent d hash fs hi hs]

theorem Delete_of_stat_ok (d : DiskStore) (hash : GoString) (n : Node) (fs : FS)
    (hi : d.initialized = true) (hs : osStat fs (d.path hash) = Except.ok n) :
    d.Delete hash fs = (errorsErr (osError (osRemove fs (d.path hash)).1),
      (d, (osRemove fs (d.path hash)).2)) := by
  simp [Delete, initOnce_initialized d fs hi, Has_of_stat_ok d hash n fs hi hs]

theorem Delete_of_stat_error (d : DiskStore) (hash : GoString) (e : Errno) (fs : FS)
    (hi : d.initialized = true) (hs : osStat fs (d.path hash) = Except.error e)
    (he : e ≠ Errno.ENOENT) :
    (d.Delete hash fs).1 = some (Error.traced (Error.pathError e)) := by
  cases e <;> simp_all [Delete, Has, initOnce_initialized d fs hi, osIsNotExist, errorsErr]

theorem initOnce_state (d : DiskStore) (fs : FS) (h : (d.initOnce fs).1 = none) :
    (d.initOnce fs).2 = ({ d with initialized := true }, (d.initOnce fs).2.2) := by
  have := initOnce_ok d fs h
  exact Prod.ext this rfl

theorem Delete_eq_init (d : DiskStore) (hash : GoString) (fs : FS)
    (h : (d.initOnce fs).1 = none) :
    d.Delete hash fs =
      ({ d with initialized := true } : DiskStore).Delete hash (d.initOnce fs).2.2 := by
  have hst := initOnce_state d fs h
  have h2 : ({ d with initialized := true } : DiskStore).initOnce (d.initOnce fs).2.2
      = (none, ({ d with initialized := true }, (d.initOnce fs).2.2)) :=
    initOnce_initialized _ _ rfl
  conv_lhs => unfold Delete
  conv_rhs => unfold Delete
  simp only [h, h2]
  rw [hst]

theorem Has_eq_init (d : DiskStore) (hash : GoString) (fs : FS)
    (h : (d.initOnce fs).1 = none) :
    d.Has hash fs =
      ({ d with initialized := true } : DiskStore).Has hash (d.initOnce fs).2.2 := by
  have hst := initOnce_state d fs h
  have h2 : ({ d with initialized := true } : DiskStore).initOnce (d.initOnce fs).2.2
      = (none, ({ d with initialized := true }, (d.initOnce fs).2.2)) :=
    initOnce_initialized _ _ rfl
  conv_lhs => unfold Has
  conv_rhs => unfold Has
  simp only [h, h2]
  rw [hst]

theorem Has_init_failed (d : DiskStore) (hash : GoString) (fs : FS) (err : Error)
    (h : (d.initOnce fs).1 = some err) : (d.Has hash fs).1 = (false, some err) := by
  simp [Has, h]

theorem Delete_init_failed (d : DiskStore) (hash : GoString) (fs : FS) (err : Error)
    (h : (d.initOnce fs).1 = some err) : (d.Delete hash fs).1 = some err := by
  simp [Delete, h]

/-- When `Has` is false, `Delete` does what the lazy initialisation does and no more. -/
theorem Delete_absent (d : DiskStore) (hash : GoString) (fs : FS)
    (h : (d.Has hash fs).1 = (false, none)) :
    d.Delete hash fs = (none, (d.initOnce fs).2) := by
  cases hi : (d.initOnce fs).1 with
  | some err =>
    rw [Has_init_failed d hash fs err hi] at h
    simp at h
  | none =>
    rw [Has_eq_init d hash fs hi] at h
    rw [Delete_eq_init d hash fs hi, initOnce_state d fs hi]
    cases hs : osStat (d.initOnce fs).2.2
        (({ d with initialized := true } : DiskStore).path hash) with
    | ok n =>
      rw [Has_of_stat_ok _ hash n _ rfl hs] at h
      simp at h
    | error e =>
      cases e with
      | ENOENT => exact Delete_of_enoent _ hash _ rfl hs
      | _ => simp [Has, initOnce_initialized, hs, osIsNotExist, errorsErr] at h

/-- After a `Delete` that succeeds, `Has` is false. -/
theorem Has_after_Delete (d : DiskStore) (hash : GoString) (fs : FS)
    (h : (d.Delete hash fs).1 = none) :
    ((d.Delete hash fs).2.1.Has hash (d.Delete hash fs).2.2).1 = (false, none) := by
  cases hi : (d.initOnce fs).1 with
  | some err =>
    rw [Delete_init_failed d hash fs err hi] at h
    cases h
  | none =>
    rw [Delete_eq_init d hash fs hi] at h ⊢
    cases hs : osStat (d.initOnce fs).2.2
        (({ d with initialized := true } : DiskStore).path hash) with
    | error e =>
      by_cases he : e = Errno.ENOENT
      · subst he
        rw [Delete_of_enoent _ hash _ rfl hs]
        rw [Has_of_enoent _ hash _ rfl hs]
      · rw [Delete_of_stat_error _ hash e _ rfl hs he] at h
        cases h
    | ok n =>
      rw [Delete_of_stat_ok _ hash n _ rfl hs] at h ⊢
      have hr := (errorsErr_osError_eq_none _).1 h
      have hst := (osStat_after_remove _ _ hr).2
      rw [Has_of_enoent _ hash _ rfl hst]

/-- On a tree that the store owns, the initialisation succeeds and the store
still owns the tree. -/
theorem initOnce_owned (d : DiskStore) (fs : FS) (ho : d.ownsTree fs = true) :
    (d.initOnce fs).1 = none ∧ d.ownsTree (d.initOnce fs).2.2 = true := by
  obtain ⟨hroot, hall⟩ := (ownsTree_iff d fs).1 ho
  have hm : (osMkdirAll fs d.blobDir).1 = none := by
    simp only [osMkdirAll, hroot, if_false]
    exact (FS.mkdirAllAux_ok fs _ _ (owned_root_chain d fs ho)).1
  have hm2 : d.ownsTree (osMkdirAll fs d.blobDir).2 = true := by
    rw [ownsTree_iff]
    simp only [osMkdirAll, hroot, if_false]
    exact ⟨hroot, FS.forall_mkdirAllAux fs _ _ _ hall (owned_root_entries d)⟩
  unfold initOnce
  cases hi : d.initialized with
  | true => exact ⟨rfl, ho⟩
  | false =>
    simp only [Bool.false_eq_true, if_false, ensureDirExists, hm, osError, Option.map_none',
      errorsErr]
    exact ⟨trivial, hm2⟩

theorem mkdirAll_dir_owned (d : DiskStore) (h : GoString) (fs : FS)
    (ho : d.ownsTree fs = true) (hh : isHex h = true) :
    (osMkdirAll fs (d.dir h)).1 = none ∧ d.ownsTree (osMkdirAll fs (d.dir h)).2 = true ∧
      (osMkdirAll fs (d.dir h)).2.lookupPath (resolve d.blobDir).rooted (resolve (d.dir h)).rev
        = Except.ok Node.dir := by
  obtain ⟨hroot, hall⟩ := (ownsTree_iff d fs).1 ho
  obtain ⟨hdir, _, hrooted, _, _⟩ := path_shape d h hroot hh
  have hok := FS.mkdirAllAux_ok fs (resolve d.blobDir).rooted (resolve (d.dir h)).rev
    (owned_dir_chain d h fs ho hh)
  simp only [osMkdirAll, hdir, if_false, hrooted]
  refine ⟨hok.1, ?_, hok.2.1⟩
  rw [ownsTree_iff]
  exact ⟨hroot, FS.forall_mkdirAllAux fs _ _ _ hall (owned_dir_entries d h hroot hh)⟩

/-- On a tree that the store owns, `Put` of a hex hash succeeds and the store
still owns the tree. -/
theorem Put_owned (d : DiskStore) (h : GoString) (blob : Blob) (fs : FS)
    (ho : d.ownsTree fs = true) (hh : isHex h = true) :
    (d.Put h blob fs).1 = none ∧ d.ownsTree (d.Put h blob fs).2.2 = true := by
  obtain ⟨hroot, _⟩ := (ownsTree_iff d fs).1 ho
  obtain ⟨hi, ho1⟩ := initOnce_owned d fs ho
  obtain ⟨hm, ho2, hl⟩ := mkdirAll_dir_owned d h (d.initOnce fs).2.2 ho1 hh
  obtain ⟨_, hpne, _, hpath, _⟩ := path_shape d h hroot hh
  have hrev : (resolve (d.path h)).rev = h :: (resolve (d.dir h)).rev := by rw [hpath]
  have hrt : (resolve (d.path h)).rooted = (resolve d.blobDir).rooted := by rw [hpath]
  have hw := ioutilWriteFile_succeeds (osMkdirAll (d.initOnce fs).2.2 (d.dir h)).2 (d.path h)
    blob h _ hpne hrev (by rw [hrt]; exact hl) (owned_path_not_dir d h _ ho2 hh)
  have hd := initOnce_ok d fs hi
  have hdir : ({ d with initialized := true } : DiskStore).dir h = d.dir h := rfl
  have hpath2 : ({ d with initialized := true } : DiskStore).path h = d.path h := rfl
  have hput : d.Put h blob fs = (none, ({ d with initialized := true },
      (osMkdirAll (d.initOnce fs).2.2 (d.dir h)).2.set (resolve (d.path h)) (Node.file blob))) := by
    unfold Put
    simp only [hi, hd, ensureDirExists, hdir, hpath2, hm, hw, osError, Option.map_none',
      errorsErr]
  rw [hput]
  refine ⟨rfl, ?_⟩
  rw [ownsTree_iff]
  obtain ⟨_, hall2⟩ := (ownsTree_iff d _).1 ho2
  exact ⟨hroot, FS.forall_set _ _ _ _ hall2 (owned_file_entry d h blob hroot hh)⟩

/-- On a tree that the store owns, the path of a hex hash names a regular file
or nothing. -/
theorem stat_owned (d : DiskStore) (h : GoString) (fs : FS)
    (ho : d.ownsTree fs = true) (hh : isHex h = true) :
    osStat fs (d.path h) = Except.error Errno.ENOENT ∨
      ∃ data, osStat fs (d.path h) = Except.ok (Node.file data) := by
  obtain ⟨hroot, _⟩ := (ownsTree_iff d fs).1 ho
  obtain ⟨_, hpne, _, hpath, _⟩ := path_shape d h hroot hh
  have hnd := owned_path_not_dir d h fs ho hh
  rw [hpath] at hnd
  simp only [osStat, hpne, if_false, hpath]
  rcases FS.lookupPath_no_file fs _ _ (owned_dir_chain d h fs ho hh) with h1 | h1
  · rw [FS.lookupPath_cons_of _ _ _ _ h1]
    cases hn : fs.node (FPath.mk (resolve d.blobDir).rooted (h :: (resolve (d.dir h)).rev)) with
    | none => left; rfl
    | some n =>
      cases n with
      | file data => right; exact ⟨data, rfl⟩
      | dir => exact absurd hn hnd
  · left
    simp only [FS.lookupPath, h1]

/-- On a tree that the store owns, `Delete` of a hex hash succeeds and the store
still owns the tree. -/
theorem Delete_owned (d : DiskStore) (h : GoString) (fs : FS)
    (ho : d.ownsTree fs = true) (hh : isHex h = true) :
    (d.Delete h fs).1 = none ∧ d.ownsTree (d.Delete h fs).2.2 = true := by
  obtain ⟨hi, ho1⟩ := initOnce_owned d fs ho
  rw [Delete_eq_init d h fs hi]
  have hpath : ({ d with initialized := true } : DiskStore).path h = d.path h := rfl
  rcases stat_owned d h _ ho1 hh with hs | ⟨data, hs⟩
  · rw [Delete_of_enoent _ h _ rfl (by rw [hpath]; exact hs)]
    exact ⟨rfl, ho1⟩
  · rw [Delete_of_stat_ok _ h _ _ rfl (by rw [hpath]; exact hs), hpath]
    have hr : osRemove (d.initOnce fs).2.2 (d.path h)
        = (none, (d.initOnce fs).2.2.erase (resolve (d.path h))) := by
      simp [osRemove, hs]
    rw [hr]
    refine ⟨rfl, ?_⟩
    rw [ownsTree_iff]
    obtain ⟨hroot, hall⟩ := (ownsTree_iff d _).1 ho1
    exact ⟨hroot, FS.forall_erase _ _ _ hall⟩

end DiskStore

/-! ## Claims about the caching store -/

namespace CachingStore

variable {σo σc : Type}

/-- C1: when `cache.Get(h)` fails with NotFound, `Get` calls `origin.Get(h)`;
if that succeeds with bytes `b`, `cache.Put(h, b)` is the next and last call and
`b` is returned (together with the result of that `Put`); if it fails, the
error of the origin is returned with no blob, no further call is made and the
cache is as `cache.Get` left it. -/
theorem Get_miss_fetches_origin_then_fills_cache (c : CachingStore σo σc) (hash : GoString)
    (w : World σo σc) (e : Error)
    (hmiss : (c.cache.Get hash w.cacheState).1.2 = some e)
    (hnf : errorsIs e Error.ErrBlobNotFound = true) :
    (∀ b, (c.origin.Get hash w.originState).1 = (b, none) →
      (c.Get hash w).1.1 = b ∧
      (c.Get hash w).1.2 = (c.cache.Put hash b (c.cache.Get hash w.cacheState).2).1 ∧
      (c.Get hash w).2.calls = w.calls ++
        [(Layer.cache, Call.Get hash), (Layer.origin, Call.Get hash),
          (Layer.cache, Call.Put hash b)] ∧
      (c.Get hash w).2.cacheState = (c.cache.Put hash b (c.cache.Get hash w.cacheState).2).2) ∧
    (∀ b err, (c.origin.Get hash w.originState).1 = (b, some err) →
      (c.Get hash w).1 = ([], some err) ∧
      (c.Get hash w).2.calls = w.calls ++
        [(Layer.cache, Call.Get hash), (Layer.origin, Call.Get hash)] ∧
      (c.Get hash w).2.cacheState = (c.cache.Get hash w.cacheState).2) := by
  constructor
  · intro b hb
    simp [Get, cacheGet, originGet, cachePut, World.log, hmiss, hnf, hb]
  · intro b err hb
    simp [Get, cacheGet, originGet, World.log, hmiss, hnf, hb]

/-- C1 at a cold cache of two disk stores: `abcd` is fetched from the origin
and put into the cache. -/
theorem Get_miss_fetches_origin_then_fills_cache_witness :
    (diskCaching.cache.Get "abcd".toList coldWorld.cacheState).1.2
        = some (Error.traced Error.ErrBlobNotFound) ∧
      errorsIs (Error.traced Error.ErrBlobNotFound) Error.ErrBlobNotFound = true ∧
      (diskCaching.origin.Get "abcd".toList coldWorld.originState).1 = ([1, 2, 3], none) ∧
      (diskCaching.Get "abcd".toList coldWorld).1.1 = [1, 2, 3] ∧
      (diskCaching.Get "abcd".toList coldWorld).2.calls =
        [(Layer.cache, Call.Get "abcd".toList), (Layer.origin, Call.Get "abcd".toList),
          (Layer.cache, Call.Put "abcd".toList [1, 2, 3])] :=
  have h := (Get_miss_fetches_origin_then_fills_cache diskCaching "abcd".toList coldWorld
    (Error.traced Error.ErrBlobNotFound) (by decide) (by decide)).1 [1, 2, 3] (by decide)
  ⟨by decide, by decide, by decide, h.1, h.2.2.1⟩

/-- C3: `Put` and `PutSD` write to the origin first. If that write fails, its
error is returned, it is the only call made and the cache is untouched. If it
succeeds, the cache write is the second and last call and its result, error
included, is the result of the whole call, the origin staying written. -/
theorem Put_origin_first_then_cache (c : CachingStore σo σc) (hash : GoString) (blob : Blob)
    (w : World σo σc) :
    (∀ err, (c.origin.Put hash blob w.originState).1 = some err →
      (c.Put hash blob w).1 = some err ∧
      (c.Put hash blob w).2.calls = w.calls ++ [(Layer.origin, Call.Put hash blob)] ∧
      (c.Put hash blob w).2.cacheState = w.cacheState) ∧
    ((c.origin.Put hash blob w.originState).1 = none →
      (c.Put hash blob w).1 = (c.cache.Put hash blob w.cacheState).1 ∧
      (c.Put hash blob w).2.calls = w.calls ++
        [(Layer.origin, Call.Put hash blob), (Layer.cache, Call.Put hash blob)] ∧
      (c.Put hash blob w).2.cacheState = (c.cache.Put hash blob w.cacheState).2 ∧
      (c.Put hash blob w).2.originState = (c.origin.Put hash blob w.originState).2) ∧
    (∀ err, (c.origin.PutSD hash blob w.originState).1 = some err →
      (c.PutSD hash blob w).1 = some err ∧
      (c.PutSD hash blob w).2.calls = w.calls ++ [(Layer.origin, Call.PutSD hash blob)] ∧
      (c.PutSD hash blob w).2.cacheState = w.cacheState) ∧
    ((c.origin.PutSD hash blob w.originState).1 = none →
      (c.PutSD hash blob w).1 = (c.cache.PutSD hash blob w.cacheState).1 ∧
      (c.PutSD hash blob w).2.calls = w.calls ++
        [(Layer.origin, Call.PutSD hash blob), (Layer.cache, Call.PutSD hash blob)] ∧
      (c.PutSD hash blob w).2.cacheState = (c.cache.PutSD hash blob w.cacheState).2 ∧
      (c.PutSD hash blob w).2.originState = (c.origin.PutSD hash blob w.originState).2) := by
  refine ⟨?_, ?_, ?_, ?_⟩
  · intro err h
    simp [Put, originPut, World.log, h]
  · intro h
    simp [Put, originPut, cachePut, World.log, h]
  · intro err h
    simp [PutSD, originPutSD, World.log, h]
  · intro h
    simp [PutSD, originPutSD, cachePutSD, World.log, h]

/-- C3 on disk stores: with a broken cache the origin write succeeds, the
cache write fails and `Put` reports that failure. -/
theorem Put_origin_first_then_cache_witness :
    (diskCaching.origin.Put "abcd".toList [7] brokenCacheWorld.originState).1 = none ∧
      (diskCaching.Put "abcd".toList [7] brokenCacheWorld).1
        = some (Error.traced (Error.pathError Errno.ENOTDIR)) ∧
      (diskCaching.origin.Get "abcd".toList
        (diskCaching.Put "abcd".toList [7] brokenCacheWorld).2.originState).1 = ([7], none) :=
  have h := (Put_origin_first_then_cache diskCaching "abcd".toList [7] brokenCacheWorld).2.1
    (by decide)
  ⟨by decide, h.1.trans (by decide), by rw [h.2.2.2]; decide⟩

/-- C4: `Has` returns the result of `cache.Has(h)` unchanged, after that one
call, when it reports true or an error; otherwise it returns the result of
`origin.Has(h)`, called second. -/
theorem Has_cache_first_else_origin (c : CachingStore σo σc) (hash : GoString)
    (w : World σo σc) :
    (((c.cache.Has hash w.cacheState).1.1 = true ∨ (c.cache.Has hash w.cacheState).1.2 ≠ none) →
      (c.Has hash w).1 = (c.cache.Has hash w.cacheState).1 ∧
      (c.Has hash w).2.calls = w.calls ++ [(Layer.cache, Call.Has hash)] ∧
      (c.Has hash w).2.originState = w.originState) ∧
    ((c.cache.Has hash w.cacheState).1 = (false, none) →
      (c.Has hash w).1 = (c.origin.Has hash w.originState).1 ∧
      (c.Has hash w).2.calls = w.calls ++
        [(Layer.cache, Call.Has hash), (Layer.origin, Call.Has hash)]) := by
  constructor
  · intro h
    have hc : ((c.cache.Has hash w.cacheState).1.1 || (c.cache.Has hash w.cacheState).1.2.isSome)
        = true := by
      rcases h with h | h
      · simp [h]
      · cases hx : (c.cache.Has hash w.cacheState).1.2 with
        | none => exact absurd hx h
        | some e => simp
    simp [Has, cacheHas, World.log, hc]
  · intro h
    have h1 : (c.cache.Has hash w.cacheState).1.1 = false := by rw [h]
    have h2 : (c.cache.Has hash w.cacheState).1.2 = none := by rw [h]
    simp [Has, cacheHas, originHas, World.log, h1, h2]

/-- C4 on disk stores: the cache does not have `abcd`, the origin is asked and
has it. -/
theorem Has_cache_first_else_origin_witness :
    (diskCaching.cache.Has "abcd".toList coldWorld.cacheState).1 = (false, none) ∧
      (diskCaching.Has "abcd".toList coldWorld).1 = (true, none) ∧
      (diskCaching.Has "abcd".toList coldWorld).2.calls =
        [(Layer.cache, Call.Has "abcd".toList), (Layer.origin, Call.Has "abcd".toList)] :=
  have h := (Has_cache_first_else_origin diskCaching "abcd".toList coldWorld).2 (by decide)
  ⟨by decide, h.1.trans (by decide), h.2⟩

/-- C6: when `cache.Get(h)` fails with an error that is not NotFound, `Get`
returns the blob and the error of the cache as they are; `cache.Get` is the
only call made, the origin is untouched and the cache is as `cache.Get` left
it. -/
theorem Get_cache_error_returns_early (c : CachingStore σo σc) (hash : GoString)
    (w : World σo σc) (e : Error)
    (herr : (c.cache.Get hash w.cacheState).1.2 = some e)
    (hnf : errorsIs e Error.ErrBlobNotFound = false) :
    (c.Get hash w).1 = (c.cache.Get hash w.cacheState).1 ∧
      (c.Get hash w).2.calls = w.calls ++ [(Layer.cache, Call.Get hash)] ∧
      (c.Get hash w).2.originState = w.originState ∧
      (c.Get hash w).2.cacheState = (c.cache.Get hash w.cacheState).2 := by
  simp [Get, cacheGet, World.log, herr, hnf]

/-- C6 on disk stores: with a broken cache, `Get` returns the error of the
cache although the origin holds the blob. -/
theorem Get_cache_error_returns_early_witness :
    (diskCaching.cache.Get "abcd".toList brokenCacheWorld.cacheState).1.2
        = some (Error.traced (Error.pathError Errno.ENOTDIR)) ∧
      errorsIs (Error.traced (Error.pathError Errno.ENOTDIR)) Error.ErrBlobNotFound = false ∧
      (diskCaching.Get "abcd".toList brokenCacheWorld).1
        = ([], some (Error.traced (Error.pathError Errno.ENOTDIR))) ∧
      (diskCaching.Get "abcd".toList brokenCacheWorld).2.calls
        = [(Layer.cache, Call.Get "abcd".toList)] :=
  have h := Get_cache_error_returns_early diskCaching "abcd".toList brokenCacheWorld
    (Error.traced (Error.pathError Errno.ENOTDIR)) (by decide) (by decide)
  ⟨by decide, by decide, h.1.trans (by decide), h.2.1⟩

/-- C2, as stated, fails: the origin returns `[1, 2, 3]` for `abcd`, but the
directory of the cache cannot be made, `cache.Get` fails with an error that is
not NotFound, and `Get` returns that error and no bytes; afterwards
`cache.Has` is not true. -/
theorem Get_not_transparent_when_cache_fails :
    (diskCaching.origin.Get "abcd".toList brokenCacheWorld.originState).1 = ([1, 2, 3], none) ∧
      (diskCaching.Get "abcd".toList brokenCacheWorld).1
        = ([], some (Error.traced (Error.pathError Errno.ENOTDIR))) ∧
      (diskCaching.cache.Has "abcd".toList
        (diskCaching.Get "abcd".toList brokenCacheWorld).2.cacheState).1
        = (false, some (Error.traced (Error.pathError Errno.ENOTDIR))) := by
  decide

/-- C2, amended: when `origin.Get(h)` returns bytes `b`, and `cache.Get(h)`
either returns `b` or fails with NotFound and the `cache.Put(h, b)` that
follows succeeds, `Get(h)` returns `b` without error; and when the cache
reports what it holds, `cache.Has(h)` is true afterwards. -/
theorem Get_transparent_when_cache_sound (c : CachingStore σo σc) (hash : GoString)
    (w : World σo σc) (b : Blob)
    (horigin : (c.origin.Get hash w.originState).1 = (b, none))
    (hcache : (c.cache.Get hash w.cacheState).1 = (b, none) ∨
      ∃ e, (c.cache.Get hash w.cacheState).1.2 = some e ∧
        errorsIs e Error.ErrBlobNotFound = true ∧
        (c.cache.Put hash b (c.cache.Get hash w.cacheState).2).1 = none)
    (hcons : HasConsistent c.cache) :
    (c.Get hash w).1 = (b, none) ∧
      (c.cache.Has hash (c.Get hash w).2.cacheState).1 = (true, none) := by
  rcases hcache with hhit | ⟨e, hmiss, hnf, hput⟩
  · have h2 : (c.cache.Get hash w.cacheState).1.2 = none := by rw [hhit]
    have hres : c.Get hash w =
        ((c.cache.Get hash w.cacheState).1,
          { (c.cacheGet hash w).2 with CacheHitCount := (c.cacheGet hash w).2.CacheHitCount + 1 })
        := by
      simp [Get, cacheGet, h2]
    rw [hres]
    exact ⟨hhit, hcons.2 hash w.cacheState h2⟩
  · have hres : c.Get hash w =
        ((b, (c.cache.Put hash b (c.cache.Get hash w.cacheState).2).1),
          (c.cachePut hash b (c.originGet hash
            { (c.cacheGet hash w).2 with
              CacheMissCount := (c.cacheGet hash w).2.CacheMissCount + 1 }).2).2) := by
      simp [Get, cacheGet, originGet, cachePut, World.log, hmiss, hnf, horigin]
    rw [hres, hput]
    refine ⟨rfl, ?_⟩
    have := hcons.1 hash b (c.cache.Get hash w.cacheState).2 hput
    simpa [cachePut, originGet, cacheGet, World.log] using this

/-- C2, amended, on two disk stores with a cold cache: `abcd` comes back as
the origin holds it and the cache has it afterwards. -/
theorem Get_transparent_when_cache_sound_witness :
    (diskCaching.origin.Get "abcd".toList coldWorld.originState).1 = ([1, 2, 3], none) ∧
      (diskCaching.Get "abcd".toList coldWorld).1 = ([1, 2, 3], none) ∧
      (diskCaching.cache.Has "abcd".toList
        (diskCaching.Get "abcd".toList coldWorld).2.cacheState).1 = (true, none) :=
  have h := Get_transparent_when_cache_sound diskCaching "abcd".toList coldWorld [1, 2, 3]
    (by decide)
    (Or.inr ⟨Error.traced Error.ErrBlobNotFound, by decide, by decide, by decide⟩)
    DiskStore.asBlobStore_hasConsistent
  ⟨by decide, h.1, h.2⟩

/-- C5, as stated, fails: the origin delete fails, `Delete` returns after that
one call, no delete is attempted on the cache and the cache still has the
blob. -/
theorem Delete_skips_cache_when_origin_fails :
    (diskCaching.origin.Delete "abcd".toList brokenOriginWorld.originState).1
        = some (Error.traced (Error.pathError Errno.ENOTDIR)) ∧
      (diskCaching.Delete "abcd".toList brokenOriginWorld).1
        = some (Error.traced (Error.pathError Errno.ENOTDIR)) ∧
      (diskCaching.Delete "abcd".toList brokenOriginWorld).2.calls
        = [(Layer.origin, Call.Delete "abcd".toList)] ∧
      (diskCaching.cache.Has "abcd".toList
        (diskCaching.Delete "abcd".toList brokenOriginWorld).2.cacheState).1 = (true, none) := by
  decide

/-- C5, amended: `Delete` deletes from the origin first. If that fails, its
error is returned, it is the only call made and the cache is untouched. If it
succeeds, the cache delete is the second and last call and its result is the
result of the whole call. -/
theorem Delete_origin_first_then_cache (c : CachingStore σo σc) (hash : GoString)
    (w : World σo σc) :
    (∀ err, (c.origin.Delete hash w.originState).1 = some err →
      (c.Delete hash w).1 = some err ∧
      (c.Delete hash w).2.calls = w.calls ++ [(Layer.origin, Call.Delete hash)] ∧
      (c.Delete hash w).2.cacheState = w.cacheState) ∧
    ((c.origin.Delete hash w.originState).1 = none →
      (c.Delete hash w).1 = (c.cache.Delete hash w.cacheState).1 ∧
      (c.Delete hash w).2.calls = w.calls ++
        [(Layer.origin, Call.Delete hash), (Layer.cache, Call.Delete hash)] ∧
      (c.Delete hash w).2.cacheState = (c.cache.Delete hash w.cacheState).2 ∧
      (c.Delete hash w).2.originState = (c.origin.Delete hash w.originState).2) := by
  constructor
  · intro err h
    simp [Delete, originDelete, World.log, h]
  · intro h
    simp [Delete, originDelete, cacheDelete, World.log, h]

/-- C5, amended, on two disk stores: the origin delete succeeds and the cache
is asked next. -/
theorem Delete_origin_first_then_cache_witness :
    (diskCaching.origin.Delete "abcd".toList coldWorld.originState).1 = none ∧
      (diskCaching.Delete "abcd".toList coldWorld).1 = none ∧
      (diskCaching.Delete "abcd".toList coldWorld).2.calls =
        [(Layer.origin, Call.Delete "abcd".toList), (Layer.cache, Call.Delete "abcd".toList)] :=
  have h := (Delete_origin_first_then_cache diskCaching "abcd".toList coldWorld).2 (by decide)
  ⟨by decide, h.1.trans (by decide), h.2.1⟩

/-- C7: after `DiskStore.Put(h, b)` succeeds, `DiskStore.Get(h)` returns
exactly `b`; and for a caching store of an origin and a cache that both have
this round-trip property, after its `Put(h, b)` succeeds its `Get(h)` returns
exactly `b`. -/
theorem round_trip_disk_and_caching (origin : BlobStore σo) (cache : BlobStore σc)
    (component : String) :
    (∀ (d : DiskStore) (hash : GoString) (blob : Blob) (fs : FS),
      (d.Put hash blob fs).1 = none →
        ((d.Put hash blob fs).2.1.Get hash (d.Put hash blob fs).2.2).1 = (blob, none)) ∧
    (RoundTrip origin → RoundTrip cache →
      ∀ (hash : GoString) (blob : Blob) (w : World σo σc),
        ((NewCachingStore component origin cache).Put hash blob w).1 = none →
          ((NewCachingStore component origin cache).Get hash
            ((NewCachingStore component origin cache).Put hash blob w).2).1 = (blob, none)) := by
  refine ⟨DiskStore.Get_after_Put, ?_⟩
  intro _ hcache hash blob w hput
  cases ho : (origin.Put hash blob w.originState).1 with
  | some err =>
    simp [Put, originPut, NewCachingStore, WithSingleFlight, ho] at hput
  | none =>
    have hc : (cache.Put hash blob w.cacheState).1 = none := by
      simpa [Put, originPut, cachePut, NewCachingStore, WithSingleFlight, ho] using hput
    have hg := hcache hash blob w.cacheState hc
    have h2 : (cache.Get hash (cache.Put hash blob w.cacheState).2).1.2 = none := by rw [hg]
    simp [Put, Get, originPut, cachePut, cacheGet, NewCachingStore, WithSingleFlight,
      World.log, ho, h2, hg]

/-- C7 on disk stores: a blob put into an empty disk store and into an empty
caching store of two disk stores comes back. -/
theorem round_trip_disk_and_caching_witness :
    (originDisk.Put "abcd".toList [1, 2, 3] []).1 = none ∧
      ((originDisk.Put "abcd".toList [1, 2, 3] []).2.1.Get "abcd".toList
        (originDisk.Put "abcd".toList [1, 2, 3] []).2.2).1 = ([1, 2, 3], none) ∧
      (diskCaching.Put "abcd".toList [1, 2, 3] emptyWorld).1 = none ∧
      (diskCaching.Get "abcd".toList
        (diskCaching.Put "abcd".toList [1, 2, 3] emptyWorld).2).1 = ([1, 2, 3], none) :=
  have h := round_trip_disk_and_caching DiskStore.asBlobStore DiskStore.asBlobStore "test"
  ⟨by decide, h.1 originDisk "abcd".toList [1, 2, 3] [] (by decide), by decide,
    h.2 DiskStore.asBlobStore_roundTrip DiskStore.asBlobStore_roundTrip
      "abcd".toList [1, 2, 3] emptyWorld (by decide)⟩

/-- C8, as stated, fails: the name `abcd` differs from every digest of 96
characters, yet `Put` of `[1, 2, 3]` under it returns no error on a disk store
and on a caching store, and `Get` returns the bytes under that name. The same
with names that have the form of a digest: of the two names of 96 hex
characters `aa...a` and `bb...b`, one at least is not the digest of
`[1, 2, 3]`, whatever the digest function is, yet `Put` of `[1, 2, 3]` under
either returns no error on both stores and `Get` returns the bytes under
either name. -/
theorem Put_accepts_name_that_is_not_the_digest :
    (∀ H : Blob → GoString, (∀ x, (H x).length = 96) → H [1, 2, 3] ≠ "abcd".toList) ∧
      (originDisk.Put "abcd".toList [1, 2, 3] []).1 = none ∧
      ((originDisk.Put "abcd".toList [1, 2, 3] []).2.1.Get "abcd".toList
        (originDisk.Put "abcd".toList [1, 2, 3] []).2.2).1 = ([1, 2, 3], none) ∧
      (diskCaching.Put "abcd".toList [1, 2, 3] emptyWorld).1 = none ∧
      (diskCaching.Get "abcd".toList
        (diskCaching.Put "abcd".toList [1, 2, 3] emptyWorld).2).1 = ([1, 2, 3], none) ∧
      (∀ H : Blob → GoString, H [1, 2, 3] ≠ longName ∨ H [1, 2, 3] ≠ otherName) ∧
      (isHex longName = true ∧ longName.length = 96) ∧
      (isHex otherName = true ∧ otherName.length = 96) ∧
      (originDisk.Put longName [1, 2, 3] []).1 = none ∧
      ((originDisk.Put longName [1, 2, 3] []).2.1.Get longName
        (originDisk.Put longName [1, 2, 3] []).2.2).1 = ([1, 2, 3], none) ∧
      (originDisk.Put otherName [1, 2, 3] []).1 = none ∧
      ((originDisk.Put otherName [1, 2, 3] []).2.1.Get otherName
        (originDisk.Put otherName [1, 2, 3] []).2.2).1 = ([1, 2, 3], none) ∧
      (diskCaching.Put longName [1, 2, 3] emptyWorld).1 = none ∧
      (diskCaching.Get longName
        (diskCaching.Put longName [1, 2, 3] emptyWorld).2).1 = ([1, 2, 3], none) ∧
      (diskCaching.Put otherName [1, 2, 3] emptyWorld).1 = none ∧
      (diskCaching.Get otherName
        (diskCaching.Put otherName [1, 2, 3] emptyWorld).2).1 = ([1, 2, 3], none) := by
  refine ⟨?_, by decide, by decide, by decide, by decide, ?_, by decide, by decide,
    by decide, by decide, by decide, by decide, by decide, by decide, by decide, by decide⟩
  · intro H hlen heq
    have h := hlen [1, 2, 3]
    rw [heq] at h
    revert h
    decide
  · intro H
    by_cases h : H [1, 2, 3] = longName
    · right
      rw [h]
      decide
    · left
      exact h

/-- C8, amended: no `Put` compares the name with the digest of the blob. The
error that `Put` returns under a name, or that it returns none, is the same
for every two blobs, on a disk store and on a caching store of two disk
stores, so that a blob whose digest differs from the name is accepted exactly
when a blob whose digest is the name is. When `DiskStore.Put` returns no
error, `Get` then returns the blob under that name; `CachingStore.Put` returns
no error exactly when the `Put` of its origin and the `Put` of its cache
return none. -/
theorem Put_does_not_depend_on_the_digest (d : DiskStore) (fs : FS) (comp : String)
    (wd : World (DiskStore × FS) (DiskStore × FS)) (c : CachingStore σo σc)
    (w : World σo σc) (hash : GoString) (blob blob2 : Blob) :
    (d.Put hash blob fs).1 = (d.Put hash blob2 fs).1 ∧
      ((NewCachingStore comp DiskStore.asBlobStore DiskStore.asBlobStore).Put hash blob wd).1
        = ((NewCachingStore comp DiskStore.asBlobStore DiskStore.asBlobStore).Put
            hash blob2 wd).1 ∧
      ((d.Put hash blob fs).1 = none →
        ((d.Put hash blob fs).2.1.Get hash (d.Put hash blob fs).2.2).1 = (blob, none)) ∧
      ((c.Put hash blob w).1 = none ↔
        (c.origin.Put hash blob w.originState).1 = none ∧
          (c.cache.Put hash blob w.cacheState).1 = none) := by
  refine ⟨DiskStore.Put_error_any_blob d hash blob blob2 fs, ?_,
    DiskStore.Get_after_Put d hash blob fs, ?_⟩
  · have ho := DiskStore.Put_error_any_blob wd.originState.1 hash blob blob2 wd.originState.2
    have hc := DiskStore.Put_error_any_blob wd.cacheState.1 hash blob blob2 wd.cacheState.2
    cases h2 : (wd.originState.1.Put hash blob2 wd.originState.2).1 with
    | some err =>
      rw [h2] at ho
      simp [Put, originPut, NewCachingStore, WithSingleFlight, DiskStore.asBlobStore, ho, h2]
    | none =>
      rw [h2] at ho
      simp [Put, originPut, cachePut, World.log, NewCachingStore, WithSingleFlight,
        DiskStore.asBlobStore, ho, h2, hc]
  · cases horigin : (c.origin.Put hash blob w.originState).1 with
    | some err => simp [Put, originPut, horigin]
    | none => simp [Put, originPut, cachePut, World.log, horigin]

/-- C8, amended, on the disk stores: under the name `abcd` the blobs `[9]` and
`[1, 2, 3]` are both accepted, and `Get` returns `[9]` after the first. -/
theorem Put_does_not_depend_on_the_digest_witness :
    (originDisk.Put "abcd".toList [9] []).1 = none ∧
      (originDisk.Put "abcd".toList [1, 2, 3] []).1 = none ∧
      (diskCaching.Put "abcd".toList [9] emptyWorld).1
        = (diskCaching.Put "abcd".toList [1, 2, 3] emptyWorld).1 ∧
      ((originDisk.Put "abcd".toList [9] []).2.1.Get "abcd".toList
        (originDisk.Put "abcd".toList [9] []).2.2).1 = ([9], none) ∧
      (diskCaching.Put "abcd".toList [9] emptyWorld).1 = none :=
  have h := Put_does_not_depend_on_the_digest originDisk [] "test" emptyWorld diskCaching
    emptyWorld "abcd".toList [9] [1, 2, 3]
  ⟨by decide, h.1 ▸ (by decide), h.2.1, h.2.2.1 (by decide),
    h.2.2.2.2 ⟨by decide, by decide⟩⟩

end CachingStore

/-! ## Claims about the disk store -/

theorem osStat_congr (fs : FS) (a b : GoString) (ha : a ≠ []) (hb : b ≠ [])
    (h : resolve a = resolve b) : osStat fs a = osStat fs b := by
  simp [osStat, ha, hb, h]

theorem resolve_specLayout (root hash : GoString) (P : Nat) (hroot : root ≠ [])
    (hh : isHex hash = true) :
    specLayout root P hash ≠ [] ∧
      resolve (specLayout root P hash) =
        if P = 0 then { rooted := (resolve root).rooted, rev := hash :: (resolve root).rev }
        else { rooted := (resolve root).rooted,
               rev := hash :: hash.take P :: (resolve root).rev } := by
  have hplain := plainName_of_isHex hash hh
  by_cases hP : P = 0
  · simp only [specLayout, hP, if_true]
    exact ⟨by simp, resolve_append_plain root hash hroot hplain⟩
  · simp only [specLayout, hP, if_false]
    refine ⟨by simp, ?_⟩
    have hplain2 := plainName_of_isHex _ (isHex_take hash P hh (by omega))
    have h1 := resolve_append_plain root (hash.take P) hroot hplain2
    have h2 := resolve_append_plain (root ++ '/' :: hash.take P) hash (by simp) hplain
    have hassoc : root ++ '/' :: (hash.take P ++ '/' :: hash)
        = (root ++ '/' :: hash.take P) ++ '/' :: hash := by simp
    rw [hassoc, h2, h1]

namespace DiskStore

theorem Get_ok_file (d : DiskStore) (hash : GoString) (b : Blob) (fs : FS)
    (h : (d.Get hash fs).1 = (b, none)) :
    osStat (d.Get hash fs).2.2 (d.path hash) = Except.ok (Node.file b) := by
  unfold Get at h ⊢
  cases hi : (d.initOnce fs).1 with
  | some err => simp [hi] at h
  | none =>
    have hd := initOnce_ok d fs hi
    have hp2 : (d.initOnce fs).2.1.path hash = d.path hash := by rw [hd]; rfl
    simp only [hi, hp2] at h ⊢
    cases hs : osStat (d.initOnce fs).2.2 (d.path hash) with
    | error e =>
      simp only [ioutilReadFile, hs] at h
      split at h <;> simp [errorsErr] at h
    | ok n =>
      cases n with
      | dir => simp [ioutilReadFile, hs, errorsErr, osIsNotExist] at h
      | file data =>
        simp only [ioutilReadFile, hs] at h ⊢
        have : data = b := by simpa using congrArg (fun x => x.1) h
        rw [← this]

/-- C9, as stated, fails: with a prefix length of 97 the blob of a name of 96
characters is written to `/data/<name>`, not to `/data/<name>/<name>`, which
the layout of the spec names. -/
theorem path_of_short_name_is_not_sharded :
    wideDisk.path longName = "/data".toList ++ '/' :: longName ∧
      resolve (wideDisk.path longName) ≠ resolve (specLayout "/data".toList 97 longName) ∧
      osStat (wideDisk.Put longName [1, 2, 3] []).2.2 ("/data".toList ++ '/' :: longName)
        = Except.ok (Node.file [1, 2, 3]) ∧
      osStat (wideDisk.Put longName [1, 2, 3] []).2.2 (specLayout "/data".toList 97 longName)
        = Except.error Errno.ENOTDIR := by
  decide

/-- C9, amended: for every root directory of a non-empty name, every prefix
length `P` and every hash of hex characters, the file that `Put` writes and
`Get` reads is `<root>/<hash[0:P]>/<hash>` when `0 < P ≤ len(hash)`, and
`<root>/<hash>`, without a shard directory, when `P ≤ 0` or `len(hash) < P`. -/
theorem path_layout (d : DiskStore) (hash : GoString) (blob : Blob) (fs : FS)
    (hroot : d.blobDir ≠ []) (hh : isHex hash = true) :
    ((0 < d.prefixLength ∧ d.prefixLength ≤ (hash.length : Int)) →
      resolve (d.path hash) = resolve (specLayout d.blobDir d.prefixLength.toNat hash) ∧
      ((d.Put hash blob fs).1 = none →
        osStat (d.Put hash blob fs).2.2 (specLayout d.blobDir d.prefixLength.toNat hash)
          = Except.ok (Node.file blob)) ∧
      ((d.Get hash fs).1 = (blob, none) →
        osStat (d.Get hash fs).2.2 (specLayout d.blobDir d.prefixLength.toNat hash)
          = Except.ok (Node.file blob))) ∧
    ((d.prefixLength ≤ 0 ∨ (hash.length : Int) < d.prefixLength) →
      d.dir hash = d.blobDir ∧
      resolve (d.path hash) = resolve (specLayout d.blobDir 0 hash) ∧
      ((d.Put hash blob fs).1 = none →
        osStat (d.Put hash blob fs).2.2 (specLayout d.blobDir 0 hash)
          = Except.ok (Node.file blob)) ∧
      ((d.Get hash fs).1 = (blob, none) →
        osStat (d.Get hash fs).2.2 (specLayout d.blobDir 0 hash)
          = Except.ok (Node.file blob))) := by
  obtain ⟨hpne, hflat, hshard⟩ := resolve_path d hash hroot hh
  have hput : (d.Put hash blob fs).1 = none →
      osStat (d.Put hash blob fs).2.2 (d.path hash) = Except.ok (Node.file blob) := by
    intro h
    obtain ⟨_, _, hw, hst⟩ := Put_ok d hash blob fs h
    rw [hst]
    exact osStat_after_write _ _ _ hw
  have hget := Get_ok_file d hash blob fs
  constructor
  · intro hp
    have hP : d.prefixLength.toNat ≠ 0 := by omega
    obtain ⟨hne, hres⟩ := resolve_specLayout d.blobDir hash d.prefixLength.toNat hroot hh
    simp only [hP, if_false] at hres
    have heq : resolve (d.path hash)
        = resolve (specLayout d.blobDir d.prefixLength.toNat hash) := by
      rw [hres, hshard hp]
    exact ⟨heq, fun h => (osStat_congr _ _ _ hne hpne heq.symm).trans (hput h),
      fun h => (osStat_congr _ _ _ hne hpne heq.symm).trans (hget h)⟩
  · intro hp
    obtain ⟨hne, hres⟩ := resolve_specLayout d.blobDir hash 0 hroot hh
    simp only [if_true] at hres
    have heq : resolve (d.path hash) = resolve (specLayout d.blobDir 0 hash) := by
      rw [hres, hflat hp]
    exact ⟨dir_flat d hash hp, heq, fun h => (osStat_congr _ _ _ hne hpne heq.symm).trans (hput h),
      fun h => (osStat_congr _ _ _ hne hpne heq.symm).trans (hget h)⟩

/-- C9, amended, under `/data` with a prefix length of 2: `abcd` is written
to `/data/ab/abcd`. -/
theorem path_layout_witness :
    dataDisk.blobDir ≠ [] ∧ isHex "abcd".toList = true ∧
      (0 < dataDisk.prefixLength ∧ dataDisk.prefixLength ≤ (("abcd".toList).length : Int)) ∧
      (dataDisk.Put "abcd".toList [1, 2, 3] []).1 = none ∧
      specLayout dataDisk.blobDir dataDisk.prefixLength.toNat "abcd".toList
        = "/data/ab/abcd".toList ∧
      osStat (dataDisk.Put "abcd".toList [1, 2, 3] []).2.2
        (specLayout dataDisk.blobDir dataDisk.prefixLength.toNat "abcd".toList)
        = Except.ok (Node.file [1, 2, 3]) :=
  have h := (path_layout dataDisk "abcd".toList [1, 2, 3] [] (by decide) (by decide)).1
    (by decide)
  ⟨by decide, by decide, by decide, by decide, by decide, h.2.1 (by decide)⟩

/-- C10, as stated, fails: the name `aa...a` is a hash of 96 hex characters
and the path `/origin` is a regular file, so that the directory of the store
under `/origin` cannot be made. No blob is stored under the hash, yet `Delete`
of it returns the error of the lazy initialisation, as `Has` does. -/
theorem Delete_of_a_hash_fails_without_the_directory :
    (isHex longName = true ∧ longName.length = 96) ∧
      (originDisk.Has longName blockedTree).1
        = (false, some (Error.traced (Error.pathError Errno.ENOTDIR))) ∧
      (originDisk.Delete longName blockedTree).1
        = some (Error.traced (Error.pathError Errno.ENOTDIR)) := by
  decide

/-- C10, amended: for every hash of hex characters, on a file tree that the
store owns and with names on which the system acts as the file tree does (no
element `..` in the name of the directory, no name longer than the system
allows), `Delete` returns no error, whether or not a blob is stored under the
hash. For every hash, when `Has` is false `Delete` returns no error and
changes nothing but what the lazy initialisation does (nothing at all on a
store that is initialised); and after `Delete` returns no error, `Has` is
false. -/
theorem Delete_succeeds_and_removes (d : DiskStore) (hash : GoString) (fs : FS) :
    (d.ownsTree fs = true → isHex hash = true → d.namesFit hash = true →
      (d.Delete hash fs).1 = none) ∧
    ((d.Has hash fs).1 = (false, none) →
      d.Delete hash fs = (none, (d.initOnce fs).2) ∧
      (d.initialized = true → d.Delete hash fs = (none, (d, fs)))) ∧
    ((d.Delete hash fs).1 = none →
      ((d.Delete hash fs).2.1.Has hash (d.Delete hash fs).2.2).1 = (false, none)) := by
  refine ⟨fun ho hh _ => (Delete_owned d hash fs ho hh).1, ?_, Has_after_Delete d hash fs⟩
  intro h
  have hd := Delete_absent d hash fs h
  refine ⟨hd, fun hi => ?_⟩
  rw [hd, initOnce_initialized d fs hi]

/-- C10, amended, under `/data`: `abcd` is stored and `ef01` is not, `Delete`
of either returns no error, the second changes nothing, and `abcd` is gone
after the first; on an empty tree `Delete` of a hash of 96 characters returns
no error. -/
theorem Delete_succeeds_and_removes_witness :
    dataState.1.ownsTree dataState.2 = true ∧
      dataState.1.namesFit "abcd".toList = true ∧
      (dataState.1.Has "abcd".toList dataState.2).1 = (true, none) ∧
      (dataState.1.Delete "abcd".toList dataState.2).1 = none ∧
      ((dataState.1.Delete "abcd".toList dataState.2).2.1.Has "abcd".toList
        (dataState.1.Delete "abcd".toList dataState.2).2.2).1 = (false, none) ∧
      (dataState.1.Has "ef01".toList dataState.2).1 = (false, none) ∧
      dataState.1.Delete "ef01".toList dataState.2 = (none, dataState) ∧
      dataDisk.namesFit longName = true ∧
      (dataDisk.Delete longName []).1 = none :=
  have h1 := Delete_succeeds_and_removes dataState.1 "abcd".toList dataState.2
  have h2 := Delete_succeeds_and_removes dataState.1 "ef01".toList dataState.2
  have h3 := Delete_succeeds_and_removes dataDisk longName []
  ⟨by decide, by decide, by decide, h1.1 (by decide) (by decide) (by decide),
    h1.2.2 (h1.1 (by decide) (by decide) (by decide)), by decide,
    (h2.2.1 (by decide)).2 (by decide), by decide,
    h3.1 (by decide) (by decide) (by decide)⟩

end DiskStore

/-! ## Claims about the HTTP/3 client -/

theorem goCopy_fresh (b : Blob) : goCopy (List.replicate b.length 0) b = b := by
  simp [goCopy]

theorem errorsIs_non200 (code : Int) : errorsIs (non200 code) Error.ErrBlobNotFound = false := by
  simp [non200, errorsIs]

namespace Client

variable {ν : Type}

/-- C11: with the response of the server at hand, `GetBlob` returns exactly
the body on status 200 (the body being read to its end), fails with an error
that matches `ErrBlobNotFound` on 404 and with an error that does not match it
on any other status; `HasBlob` returns (true, no error) on 200, (false, no
error) on 404 and (false, error) on any other status. -/
theorem status_maps_to_store_contract (c : Client ν) (hash : GoString) (w : Run ν) :
    (∀ resp, (c.conn.Get (c.getURL hash) w.net).1 = Except.ok resp →
      (resp.StatusCode = 200 → ∀ b, resp.Body = (b, none) →
        (c.GetBlob hash w).1 = (b, none)) ∧
      (resp.StatusCode = 404 →
        ∃ e, (c.GetBlob hash w).1 = ([], some e) ∧ errorsIs e Error.ErrBlobNotFound = true) ∧
      (resp.StatusCode ≠ 200 → resp.StatusCode ≠ 404 →
        ∃ e, (c.GetBlob hash w).1 = ([], some e) ∧
          errorsIs e Error.ErrBlobNotFound = false)) ∧
    (∀ resp, (c.conn.Get (c.hasURL hash) w.net).1 = Except.ok resp →
      (resp.StatusCode = 200 → (c.HasBlob hash w).1 = (true, none)) ∧
      (resp.StatusCode = 404 → (c.HasBlob hash w).1 = (false, none)) ∧
      (resp.StatusCode ≠ 200 → resp.StatusCode ≠ 404 →
        ∃ e, (c.HasBlob hash w).1 = (false, some e))) := by
  constructor
  · intro resp hresp
    refine ⟨?_, ?_, ?_⟩
    · intro h200 b hb
      have h404 : resp.StatusCode ≠ 404 := by omega
      simp [GetBlob, connGet, hresp, h200, hb, ioCopy, getBuffer, goCopy]
    · intro h404
      refine ⟨Error.traced Error.ErrBlobNotFound, ?_, by decide⟩
      simp [GetBlob, connGet, hresp, h404, errorsErr]
    · intro h200 h404
      refine ⟨non200 resp.StatusCode, ?_, errorsIs_non200 _⟩
      simp [GetBlob, connGet, hresp, h200, h404]
  · intro resp hresp
    refine ⟨?_, ?_, ?_⟩
    · intro h200
      simp [HasBlob, connGet, hresp, h200]
    · intro h404
      simp [HasBlob, connGet, hresp, h404]
    · intro h200 h404
      exact ⟨non200 resp.StatusCode, by simp [HasBlob, connGet, hresp, h200, h404]⟩

/-- A body whose reading fails is a failure of the transport: `GetBlob`
returns the error of the reading and no blob. -/
theorem GetBlob_body_error (c : Client ν) (hash : GoString) (w : Run ν) (resp : Response)
    (b : Blob) (e : Error) (hresp : (c.conn.Get (c.getURL hash) w.net).1 = Except.ok resp)
    (h200 : resp.StatusCode = 200) (hb : resp.Body = (b, some e)) :
    (c.GetBlob hash w).1 = ([], errorsErr (some e)) := by
  have h404 : resp.StatusCode ≠ 404 := by omega
  simp [GetBlob, connGet, hresp, h200, hb, ioCopy, getBuffer]

/-- C11 at a peer: `aa` is served with status 200 and the body `[1, 2]`, and
the peer has it. -/
theorem status_maps_to_store_contract_witness :
    (peerClient.conn.Get (peerClient.getURL "aa".toList) (Run.start ()).net).1
        = Except.ok { StatusCode := 200, Body := ([1, 2], none) } ∧
      (peerClient.GetBlob "aa".toList (Run.start ())).1 = ([1, 2], none) ∧
      (peerClient.conn.Get (peerClient.hasURL "aa".toList) (Run.start ()).net).1
        = Except.ok { StatusCode := 200, Body := ([], none) } ∧
      (peerClient.HasBlob "aa".toList (Run.start ())).1 = (true, none) :=
  have h := status_maps_to_store_contract peerClient "aa".toList (Run.start ())
  ⟨by decide,
    (h.1 { StatusCode := 200, Body := ([1, 2], none) } (by decide)).1 (by decide) [1, 2]
      (by decide),
    by decide,
    (h.2 { StatusCode := 200, Body := ([], none) } (by decide)).1 (by decide)⟩

/-- C12 at an SD blob that decodes to no blob info: when the SD blob is
fetched and decodes without error to an empty list, `GetStream` panics with an
index out of range at `s[0] = b` instead of returning a stream. -/
theorem GetStream_panics_on_empty_list {σ : Type} (FromBlob : Blob → Except Error SDBlob)
    (c : Client ν) (sdHash : GoString) (blobCache : BlobStore σ) (w : Run ν) (b : Blob)
    (hget : (c.GetBlob sdHash w).1 = (b, none))
    (hdec : FromBlob b = Except.ok { BlobInfos := [] }) :
    c.GetStream FromBlob sdHash blobCache w
      = Outcome.panic "index out of range [0] with length 0" := by
  have h1 : (c.GetBlob sdHash w).1.2 = none := by rw [hget]
  have h2 : (c.GetBlob sdHash w).1.1 = b := by rw [hget]
  simp [GetStream, h1, h2, hdec]

/-- C12 at a peer that serves, under `5d`, an SD blob that names no blob info:
`GetStream` panics. -/
theorem GetStream_panics_on_empty_list_witness :
    (peerClient.GetBlob "5d".toList (Run.start ())).1 = ([0], none) ∧
      countedFromBlob [0] = Except.ok { BlobInfos := [] } ∧
      peerClient.GetStream countedFromBlob "5d".toList DiskStore.asBlobStore (Run.start ())
        = Outcome.panic "index out of range [0] with length 0" :=
  ⟨by decide, by decide,
    GetStream_panics_on_empty_list countedFromBlob peerClient "5d".toList
      DiskStore.asBlobStore (Run.start ()) [0] (by decide) (by decide)⟩

theorem take_set_succ {α : Type} (s : List α) (j : Nat) (x : α) (h : j < s.length) :
    (s.set j x).take (j + 1) = s.take j ++ [x] := by
  induction s generalizing j with
  | nil => simp at h
  | cons a as ih =>
    cases j with
    | zero => simp
    | succ m =>
      simp only [List.length_cons, Nat.add_lt_add_iff_right] at h
      simp [List.set, ih m h]

/-- Every call of `GetBlob` requests the URL of the hash, once. -/
theorem GetBlob_requests (c : Client ν) (hash : GoString) (w : Run ν) :
    (c.GetBlob hash w).2.requests = w.requests ++ [c.getURL hash] := by
  unfold GetBlob connGet
  simp only
  split
  · rfl
  · split
    · rfl
    · split
      · rfl
      · split <;> rfl

/-- The blobs fetched in order, when no fetch fails: one blob for each hash,
and one request for each hash, in the order of the hashes. -/
theorem fetchInOrder_ok (c : Client ν) (hashes : List GoString) (w : Run ν)
    (h : (c.fetchInOrder hashes w).1.2 = none) :
    (c.fetchInOrder hashes w).1.1.length = hashes.length ∧
      (c.fetchInOrder hashes w).2.requests = w.requests ++ hashes.map c.getURL := by
  induction hashes generalizing w with
  | nil => simp [fetchInOrder]
  | cons x xs ih =>
    simp only [fetchInOrder] at h ⊢
    cases h1 : (c.GetBlob x w).1.2 with
    | some err => simp [h1] at h
    | none =>
      simp only [h1] at h ⊢
      cases h2 : (c.fetchInOrder xs (c.GetBlob x w).2).1.2 with
      | some err => simp [h2] at h
      | none =>
        obtain ⟨ih1, ih2⟩ := ih (c.GetBlob x w).2 h2
        simp [ih1, ih2, GetBlob_requests]

/-- The requests of a fetch in order, whether or not it fails, are for a
prefix of the hashes. -/
theorem fetchInOrder_requests (c : Client ν) (hashes : List GoString) (w : Run ν) :
    ∃ m, m ≤ hashes.length ∧
      (c.fetchInOrder hashes w).2.requests = w.requests ++ (hashes.take m).map c.getURL := by
  induction hashes generalizing w with
  | nil => exact ⟨0, by simp [fetchInOrder]⟩
  | cons x xs ih =>
    simp only [fetchInOrder]
    cases h1 : (c.GetBlob x w).1.2 with
    | some err => exact ⟨1, by simp [GetBlob_requests]⟩
    | none =>
      obtain ⟨m, hm, hreq⟩ := ih (c.GetBlob x w).2
      refine ⟨m + 1, by simpa using hm, ?_⟩
      cases h2 : (c.fetchInOrder xs (c.GetBlob x w).2).1.2 with
      | some err => simp [hreq, GetBlob_requests]
      | none => simp [hreq, GetBlob_requests]

/-- The loop of `GetStream` on a stream slice of the right length does not
panic: it fetches the blobs of the entries `i` to `i + k - 1` in order and
puts them behind the first `i + 1` blobs of the slice. -/
theorem getStreamLoop_refines (c : Client ν) (infos : List BlobInfo) (k i : Nat)
    (s : List Blob) (w : Run ν) (hi : infos.length = i + k + 1) (hs : s.length = i + k + 1) :
    c.getStreamLoop infos k i s w =
      Outcome.ret
        (match (c.fetchInOrder (((infos.drop i).take k).map
            (fun x => hexEncodeToString x.BlobHash)) w).1.2 with
         | some err =>
           (([], some err), (c.fetchInOrder (((infos.drop i).take k).map
             (fun x => hexEncodeToString x.BlobHash)) w).2)
         | none =>
           ((s.take (i + 1) ++ (c.fetchInOrder (((infos.drop i).take k).map
             (fun x => hexEncodeToString x.BlobHash)) w).1.1, none),
            (c.fetchInOrder (((infos.drop i).take k).map
             (fun x => hexEncodeToString x.BlobHash)) w).2)) := by
  induction k generalizing i s w with
  | zero =>
    have : s.take (i + 1) = s := List.take_of_length_le (by omega)
    simp [getStreamLoop, fetchInOrder, this]
  | succ k ih =>
    have hlt : i < infos.length := by omega
    have hdrop : infos.drop i = infos[i] :: infos.drop (i + 1) := List.drop_eq_getElem_cons hlt
    have hget : infos.get? i = some infos[i] := by
      rw [List.get?_eq_getElem?, List.getElem?_eq_getElem hlt]
    have hidx : i + 1 < s.length := by omega
    simp only [getStreamLoop, hget, hidx, if_true, hdrop, List.take_succ_cons, List.map_cons,
      fetchInOrder]
    cases h1 : (c.GetBlob (hexEncodeToString infos[i].BlobHash) w).1.2 with
    | some err => rfl
    | none =>
      simp only
      rw [ih (i + 1) _ _ (by omega) (by simp; omega)]
      rw [take_set_succ s (i + 1) _ hidx]
      cases h2 : (c.fetchInOrder (((infos.drop (i + 1)).take k).map
          (fun x => hexEncodeToString x.BlobHash))
          (c.GetBlob (hexEncodeToString infos[i].BlobHash) w).2).1.2 with
      | some err => rfl
      | none => simp

/-- On an SD blob that decodes to a list of at least one blob info,
`GetStream` returns without a panic: the stream is the SD blob followed by the
blobs of all entries but the last, fetched in order, and the first fetch that
fails ends the call with its error and no stream. -/
theorem GetStream_of_nonempty {σ : Type} (FromBlob : Blob → Except Error SDBlob)
    (c : Client ν) (sdHash : GoString) (blobCache : BlobStore σ) (w : Run ν) (b : Blob)
    (sd : SDBlob) (hget : (c.GetBlob sdHash w).1 = (b, none))
    (hdec : FromBlob b = Except.ok sd) (hne : sd.BlobInfos ≠ []) :
    c.GetStream FromBlob sdHash blobCache w =
      Outcome.ret
        (match (c.fetchInOrder (sd.BlobInfos.dropLast.map
            (fun x => hexEncodeToString x.BlobHash)) (c.GetBlob sdHash w).2).1.2 with
         | some err =>
           (([], some err), (c.fetchInOrder (sd.BlobInfos.dropLast.map
             (fun x => hexEncodeToString x.BlobHash)) (c.GetBlob sdHash w).2).2)
         | none =>
           ((b :: (c.fetchInOrder (sd.BlobInfos.dropLast.map
             (fun x => hexEncodeToString x.BlobHash)) (c.GetBlob sdHash w).2).1.1, none),
            (c.fetchInOrder (sd.BlobInfos.dropLast.map
             (fun x => hexEncodeToString x.BlobHash)) (c.GetBlob sdHash w).2).2)) := by
  have h1 : (c.GetBlob sdHash w).1.2 = none := by rw [hget]
  have h2 : (c.GetBlob sdHash w).1.1 = b := by rw [hget]
  have hlen : 0 < sd.BlobInfos.length := List.length_pos.2 hne
  have hn1 : ((sd.BlobInfos.length : Int) + 1 - 1).toNat = sd.BlobInfos.length := by omega
  have hn2 : ((sd.BlobInfos.length : Int) - 1).toNat = sd.BlobInfos.length - 1 := by omega
  simp only [GetStream, h1, h2, hdec, hn1, hn2, List.length_replicate, hlen, if_true]
  rw [getStreamLoop_refines c sd.BlobInfos (sd.BlobInfos.length - 1) 0 _ _ (by omega)
    (by simp; omega)]
  have hdl : (sd.BlobInfos.drop 0).take (sd.BlobInfos.length - 1) = sd.BlobInfos.dropLast := by
    rw [List.drop_zero, List.dropLast_eq_take]
  have htk : ((List.replicate sd.BlobInfos.length ([] : Blob)).set 0 b).take (0 + 1) = [b] := by
    rw [take_set_succ _ 0 b (by simpa using hlen)]
    simp
  rw [hdl, htk]
  rfl

end Client

/-! ## A file tree that is a tree -/

namespace FS

theorem tree_of_wellFormed (fs : FS) (h : fs.wellFormed = true) : fs.Tree := by
  intro rooted c rest n hn
  cases hi : implicitDir { rooted := rooted, rev := c :: rest } with
  | true =>
    have : implicitDir { rooted := rooted, rev := rest } = true := by
      simp only [implicitDir, List.all_cons, Bool.and_eq_true] at hi ⊢
      exact hi.2
    simp [node, this]
  | false =>
    have hmem := mem_of_node fs _ _ hi hn
    simp only [wellFormed, List.all_eq_true] at h
    have := h _ hmem
    simpa using this

/-- In a tree, what a path names is what path resolution finds. -/
theorem Tree.lookupPath_of_node {fs : FS} (ht : fs.Tree) (rooted : Bool) (q : List GoString)
    (n : Node) (hn : fs.node { rooted := rooted, rev := q } = some n) :
    fs.lookupPath rooted q = Except.ok n := by
  induction q generalizing n with
  | nil =>
    simp [node, implicitDir] at hn
    simp [lookupPath, hn]
  | cons c rest ih =>
    have hp := ht rooted c rest n hn
    rw [lookupPath_cons_of fs rooted c rest (ih _ hp), hn]

/-- In a tree, everything above a directory is a directory. -/
theorem Tree.suffix_dir {fs : FS} (ht : fs.Tree) (rooted : Bool) (q : List GoString)
    (hn : fs.node { rooted := rooted, rev := q } = some Node.dir) :
    ∀ t, t <:+ q → fs.node { rooted := rooted, rev := t } = some Node.dir := by
  induction q with
  | nil =>
    intro t ht2
    have : t = [] := List.suffix_nil.1 ht2
    rw [this]
    exact hn
  | cons c rest ih =>
    intro t ht2
    rcases List.suffix_cons_iff.1 ht2 with h | h
    · rw [h]
      exact hn
    · exact ih (ht rooted c rest _ hn) t h

/-- Two trees of which the second has some more directories where the first
has nothing resolve a path alike if they name the same at the path. -/
theorem Tree.lookupPath_frame {fs1 fs2 : FS} (ht1 : fs1.Tree) (ht2 : fs2.Tree)
    (hchg : ∀ t, fs2.node t = fs1.node t ∨ (fs1.node t = none ∧ fs2.node t = some Node.dir))
    (rooted : Bool) (q : List GoString)
    (hq : fs2.node { rooted := rooted, rev := q } = fs1.node { rooted := rooted, rev := q }) :
    fs2.lookupPath rooted q = fs1.lookupPath rooted q := by
  induction q with
  | nil => rfl
  | cons c rest ih =>
    rcases hchg { rooted := rooted, rev := rest } with heq | ⟨h1, h2⟩
    · simp only [lookupPath, ih heq, hq]
    · have hnone : fs1.node { rooted := rooted, rev := c :: rest } = none := by
        cases hx : fs1.node { rooted := rooted, rev := c :: rest } with
        | none => rfl
        | some n =>
          have := ht1 rooted c rest n hx
          rw [h1] at this
          cases this
      have hl2 : fs2.lookupPath rooted rest = Except.ok Node.dir :=
        ht2.lookupPath_of_node rooted rest _ h2
      have hnofile : ∀ t, t <:+ rest → ∀ data,
          fs1.node { rooted := rooted, rev := t } ≠ some (Node.file data) := by
        intro t hts data hfile
        have hd := ht2.suffix_dir rooted rest h2 t hts
        rcases hchg { rooted := rooted, rev := t } with h | ⟨h, _⟩
        · rw [hd, hfile] at h
          cases h
        · rw [hfile] at h
          cases h
      have hl1 : fs1.lookupPath rooted rest = Except.error Errno.ENOENT := by
        rcases lookupPath_no_file fs1 rooted rest hnofile with h | h
        · exfalso
          cases rest with
          | nil => simp [node, implicitDir] at h1
          | cons c2 rest2 =>
            have := (lookupPath_cons_ok fs1 rooted c2 rest2 _ h).2
            rw [h1] at this
            cases this
        · exact h
      rw [lookupPath_cons_of fs2 rooted c rest hl2, hq, hnone]
      simp only [lookupPath, hl1]

/-- What `os.MkdirAll` does to a tree: the result is a tree, it differs from
the tree only by directories on the way that were missing, the directory
exists after a success and nothing is changed by a failure. -/
theorem mkdirAllAux_tree (fs : FS) (rooted : Bool) (l : List GoString) (ht : fs.Tree) :
    (fs.mkdirAllAux rooted l).2.Tree ∧
      (∀ t : FPath, (fs.mkdirAllAux rooted l).2.node t = fs.node t ∨
        (fs.node t = none ∧ (fs.mkdirAllAux rooted l).2.node t = some Node.dir ∧
          t.rooted = rooted ∧ t.rev <:+ l)) ∧
      ((fs.mkdirAllAux rooted l).1 = none →
        (fs.mkdirAllAux rooted l).2.lookupPath rooted l = Except.ok Node.dir) ∧
      ((fs.mkdirAllAux rooted l).1 ≠ none → (fs.mkdirAllAux rooted l).2 = fs) := by
  induction l with
  | nil =>
    refine ⟨ht, fun _ => Or.inl rfl, fun _ => rfl, fun _ => rfl⟩
  | cons c rest ih =>
    obtain ⟨ih1, ih2, ih3, ih4⟩ := ih
    simp only [mkdirAllAux]
    cases hl : fs.lookupPath rooted (c :: rest) with
    | ok n =>
      cases n with
      | dir => exact ⟨ht, fun _ => Or.inl rfl, fun _ => hl, fun _ => rfl⟩
      | file data =>
        refine ⟨ht, fun _ => Or.inl rfl, ?_, fun _ => rfl⟩
        intro h
        cases h
    | error e =>
      simp only
      cases hm : fs.mkdirAllAux rooted rest with
      | mk e1 fs1 =>
        rw [hm] at ih1 ih2 ih3 ih4
        simp only at ih1 ih2 ih3 ih4
        have hchg : ∀ t : FPath, fs1.node t = fs.node t ∨
            (fs.node t = none ∧ fs1.node t = some Node.dir ∧
              t.rooted = rooted ∧ t.rev <:+ c :: rest) := by
          intro t
          rcases ih2 t with h | ⟨h1, h2, h3, h4⟩
          · exact Or.inl h
          · exact Or.inr ⟨h1, h2, h3, h4.trans (List.suffix_cons c rest)⟩
        cases e1 with
        | some e2 =>
          simp only
          refine ⟨ih1, hchg, ?_, fun _ => ih4 (by simp)⟩
          intro h
          cases h
        | none =>
          simp only
          have hl1 := ih3 rfl
          have hparent : fs1.node { rooted := rooted, rev := rest } = some Node.dir := by
            cases rest with
            | nil => simp [node, implicitDir]
            | cons c2 rest2 => exact (lookupPath_cons_ok fs1 rooted c2 rest2 _ hl1).2
          have hpfs : fs1.node { rooted := rooted, rev := c :: rest } =
              fs.node { rooted := rooted, rev := c :: rest } := by
            rcases ih2 { rooted := rooted, rev := c :: rest } with h | ⟨_, _, _, h4⟩
            · exact h
            · exact absurd rfl (not_suffix_cons_self c rest _ h4)
          cases hn : fs1.node { rooted := rooted, rev := c :: rest } with
          | none =>
            simp only
            have hset : ∀ t : FPath,
                (fs1.set { rooted := rooted, rev := c :: rest } Node.dir).node t =
                  if t = { rooted := rooted, rev := c :: rest } then some Node.dir
                  else fs1.node t := by
              intro t
              rw [node_set]
              split
              · simp
              · rfl
            refine ⟨?_, ?_, ?_, ?_⟩
            · intro r2 c2 rest2 n2 hn2
              rw [hset] at hn2 ⊢
              by_cases hp : ({ rooted := r2, rev := c2 :: rest2 } : FPath) =
                  { rooted := rooted, rev := c :: rest }
              · injection hp with hp1 hp2
                injection hp2 with hp3 hp4
                subst hp1 hp4
                split
                · rfl
                · exact hparent
              · rw [if_neg hp] at hn2
                split
                · rfl
                · exact ih1 r2 c2 rest2 n2 hn2
            · intro t
              rw [hset]
              by_cases hp : t = { rooted := rooted, rev := c :: rest }
              · right
                rw [if_pos hp, hp]
                rw [hpfs] at hn
                exact ⟨hn, rfl, rfl, List.suffix_refl _⟩
              · rw [if_neg hp]
                exact hchg t
            · intro _
              have hcongr : (fs1.set { rooted := rooted, rev := c :: rest } Node.dir).lookupPath
                  rooted rest = fs1.lookupPath rooted rest := by
                apply lookupPath_congr
                intro t hts
                rw [hset]
                have : ({ rooted := rooted, rev := t } : FPath) ≠
                    { rooted := rooted, rev := c :: rest } := by
                  intro e
                  injection e with _ e2
                  exact not_suffix_cons_self c rest t hts e2
                rw [if_neg this]
              rw [lookupPath_cons_of _ _ _ _ (hcongr.trans hl1), hset]
              simp
            · intro h
              exact absurd rfl h
          | some n =>
            cases n with
            | dir =>
              simp only
              refine ⟨ih1, hchg, ?_, fun h => absurd rfl h⟩
              intro _
              rw [lookupPath_cons_of _ _ _ _ hl1, hn]
            | file data =>
              exfalso
              rw [hpfs] at hn
              have := ht.lookupPath_of_node rooted (c :: rest) _ hn
              rw [hl] at this
              cases this

end FS

/-! ## Paths of two hashes -/

theorem resolve_plain (h : GoString) (hh : plainName h) :
    resolve h = { rooted := false, rev := [h] } := by
  obtain ⟨h1, h2, h3, h4⟩ := hh
  have hhead : (h.head? == some '/') = false := by
    cases h with
    | nil => exact absurd rfl h1
    | cons c cs =>
      have : c ≠ '/' := fun e => h2 (by simp [e])
      simpa using this
  simp only [resolve, hhead, splitSlash_of_no_slash h h2, List.foldl_cons, List.foldl_nil]
  rw [cleanStep_plain false [] h ⟨h1, h2, h3, h4⟩]

/-- The join of any path, the empty one included, and a plain name resolves
to the name in that path. -/
theorem resolve_pathJoin_plain_any (a h : GoString) (hh : plainName h) :
    resolve (pathJoin a h) = { rooted := (resolve a).rooted, rev := h :: (resolve a).rev } ∧
      pathJoin a h ≠ [] := by
  by_cases ha : a = []
  · subst ha
    have hne : h ≠ [] := hh.1
    have hnil : resolve [] = { rooted := false, rev := [] } := by decide
    simp only [pathJoin, if_true, hne, if_false, hnil]
    exact ⟨(resolve_pathClean h).trans (resolve_plain h hh), pathClean_ne_nil h⟩
  · exact resolve_pathJoin_plain a h ha hh

namespace DiskStore

/-- The directory and the path of a hex hash, resolved, for any directory of
the store. -/
theorem path_shape_any (d : DiskStore) (h : GoString) (hh : isHex h = true) :
    d.path h ≠ [] ∧
      (resolve (d.dir h)).rooted = (resolve d.blobDir).rooted ∧
      resolve (d.path h) = { rooted := (resolve d.blobDir).rooted,
                             rev := h :: (resolve (d.dir h)).rev } ∧
      (((resolve (d.dir h)).rev = (resolve d.blobDir).rev ∧
          (d.prefixLength ≤ 0 ∨ (h.length : Int) < d.prefixLength)) ∨
        ((resolve (d.dir h)).rev = h.take d.prefixLength.toNat :: (resolve d.blobDir).rev ∧
          0 < d.prefixLength ∧ d.prefixLength ≤ (h.length : Int))) := by
  have hplain := plainName_of_isHex h hh
  by_cases hp : d.prefixLength ≤ 0 ∨ (h.length : Int) < d.prefixLength
  · have hd := dir_flat d h hp
    have hj := resolve_pathJoin_plain_any d.blobDir h hplain
    refine ⟨by simpa [path, hd] using hj.2, by rw [hd], ?_, Or.inl ⟨by rw [hd], hp⟩⟩
    rw [path, hd, hj.1]
  · have hp2 : 0 < d.prefixLength ∧ d.prefixLength ≤ (h.length : Int) := by omega
    have hdir : d.dir h = pathJoin d.blobDir (h.take d.prefixLength.toNat) := by
      simp [dir, hp]
    have hx := resolve_pathJoin_plain_any d.blobDir (h.take d.prefixLength.toNat)
      (plainName_of_isHex _ (isHex_take h _ hh (by omega)))
    rw [← hdir] at hx
    have hj := resolve_pathJoin_plain_any (d.dir h) h hplain
    refine ⟨hj.2, by rw [hx.1], ?_, Or.inr ⟨by rw [hx.1], hp2⟩⟩
    rw [path, hj.1, hx.1]

/-- The path of a hex hash does not lie on the way to the directory of a hex
hash: it is neither that directory nor above it. -/
theorem path_not_suffix_dir (d : DiskStore) (h h2 : GoString) (hh : isHex h = true)
    (hh2 : isHex h2 = true) :
    ¬ (h :: (resolve (d.dir h)).rev) <:+ (resolve (d.dir h2)).rev := by
  obtain ⟨_, _, _, hc1⟩ := path_shape_any d h hh
  obtain ⟨_, _, _, hc2⟩ := path_shape_any d h2 hh2
  intro hs
  have hlen := hs.length_le
  rcases hc1 with ⟨e1, hf1⟩ | ⟨e1, _, _⟩ <;> rcases hc2 with ⟨e2, _⟩ | ⟨e2, hp2, hl2⟩
  · rw [e1, e2] at hlen
    simp at hlen
  · rw [e1, e2] at hs
    rcases List.suffix_cons_iff.1 hs with hs | hs
    · injection hs with hs _
      have := length_take_prefix h2 _ hp2 hl2
      rw [← hs] at this
      omega
    · have := hs.length_le
      simp at this
  · rw [e1, e2] at hlen
    simp at hlen
    omega
  · rw [e1, e2] at hlen
    simp at hlen

/-- The paths of two hex hashes are two files, and none of them is the
directory of a hex hash. -/
theorem paths_distinct (d : DiskStore) (h1 h2 : GoString) (hh1 : isHex h1 = true)
    (hh2 : isHex h2 = true) (hne : h1 ≠ h2) :
    resolve (d.path h1) ≠ resolve (d.path h2) ∧
      ∀ h, isHex h = true → resolve (d.path h1) ≠ resolve (d.dir h) := by
  obtain ⟨_, _, hp1, _⟩ := path_shape_any d h1 hh1
  obtain ⟨_, _, hp2, _⟩ := path_shape_any d h2 hh2
  constructor
  · rw [hp1, hp2]
    intro e
    injection e with _ e2
    injection e2 with e3 _
    exact hne e3
  · intro h hh e
    rw [hp1] at e
    have hs : (h1 :: (resolve (d.dir h1)).rev) <:+ (resolve (d.dir h)).rev := by
      rw [← e]
    exact path_not_suffix_dir d h1 h hh1 hh hs

end DiskStore

/-! ## What a put and a delete leave alone -/

theorem osMkdirAll_tree (fs : FS) (name : GoString) (ht : fs.Tree) :
    (osMkdirAll fs name).2.Tree ∧
      (∀ t : FPath, (osMkdirAll fs name).2.node t = fs.node t ∨
        (fs.node t = none ∧ (osMkdirAll fs name).2.node t = some Node.dir ∧
          t.rooted = (resolve name).rooted ∧ t.rev <:+ (resolve name).rev)) ∧
      ((osMkdirAll fs name).1 ≠ none → (osMkdirAll fs name).2 = fs) := by
  unfold osMkdirAll
  by_cases hn : name = []
  · rw [if_pos hn]
    exact ⟨ht, fun _ => Or.inl rfl, fun _ => rfl⟩
  · rw [if_neg hn]
    obtain ⟨h1, h2, _, h4⟩ := FS.mkdirAllAux_tree fs (resolve name).rooted (resolve name).rev ht
    exact ⟨h1, h2, h4⟩

theorem ioutilWriteFile_state (fs : FS) (name : GoString) (data : Blob) :
    (ioutilWriteFile fs name data).2 = fs ∨
      (ioutilWriteFile fs name data).2 = fs.set (resolve name) (Node.file data) := by
  unfold ioutilWriteFile
  split
  · left; rfl
  · split
    · left; rfl
    · split
      · left; rfl
      · left; rfl
      · split
        · left; rfl
        · right; rfl

theorem osRemove_state (fs : FS) (name : GoString) :
    (osRemove fs name).2 = fs ∨ (osRemove fs name).2 = fs.erase (resolve name) := by
  unfold osRemove
  split
  · left; rfl
  · right; rfl
  · split
    · left; rfl
    · split
      · left; rfl
      · right; rfl

/-- A change of the entry at one path leaves the resolution of every path
alone that does not pass it. -/
theorem osStat_frame (fs fs2 : FS) (p : FPath) (name : GoString)
    (hchg : ∀ t : FPath, t ≠ p → fs2.node t = fs.node t)
    (hp : ¬ (p.rooted = (resolve name).rooted ∧ p.rev <:+ (resolve name).rev)) :
    osStat fs2 name = osStat fs name := by
  unfold osStat
  split
  · rfl
  · apply FS.lookupPath_congr
    intro t ht
    apply hchg
    intro e
    apply hp
    rw [← e]
    exact ⟨rfl, ht⟩

namespace DiskStore

theorem Has_state (d : DiskStore) (hash : GoString) (fs : FS) :
    (d.Has hash fs).2 = (d.initOnce fs).2 := by
  simp only [Has]
  split
  · rfl
  · split
    · split <;> rfl
    · rfl

theorem Get_stat_congr (d : DiskStore) (hash : GoString) (fs fs2 : FS)
    (hi : d.initialized = true) (hs : osStat fs2 (d.path hash) = osStat fs (d.path hash)) :
    (d.Get hash fs2).1 = (d.Get hash fs).1 := by
  simp only [Get, initOnce_initialized d _ hi, ioutilReadFile, hs]
  cases osStat fs (d.path hash) with
  | error e => simp only; split <;> rfl
  | ok n => cases n <;> rfl

theorem Has_stat_congr (d : DiskStore) (hash : GoString) (fs fs2 : FS)
    (hi : d.initialized = true) (hs : osStat fs2 (d.path hash) = osStat fs (d.path hash)) :
    (d.Has hash fs2).1 = (d.Has hash fs).1 := by
  simp only [Has, initOnce_initialized d _ hi, hs]
  cases osStat fs (d.path hash) with
  | error e => simp only; split <;> rfl
  | ok n => rfl

theorem Get_eq_init (d : DiskStore) (hash : GoString) (fs : FS)
    (h : (d.initOnce fs).1 = none) :
    d.Get hash fs =
      ({ d with initialized := true } : DiskStore).Get hash (d.initOnce fs).2.2 := by
  have hst := initOnce_state d fs h
  have h2 : ({ d with initialized := true } : DiskStore).initOnce (d.initOnce fs).2.2
      = (none, ({ d with initialized := true }, (d.initOnce fs).2.2)) :=
    initOnce_initialized _ _ rfl
  conv_lhs => unfold Get
  conv_rhs => unfold Get
  simp only [h, h2]
  rw [hst]

theorem Put_eq_init (d : DiskStore) (hash : GoString) (blob : Blob) (fs : FS)
    (h : (d.initOnce fs).1 = none) :
    d.Put hash blob fs =
      ({ d with initialized := true } : DiskStore).Put hash blob (d.initOnce fs).2.2 := by
  have hst := initOnce_state d fs h
  have h2 : ({ d with initialized := true } : DiskStore).initOnce (d.initOnce fs).2.2
      = (none, ({ d with initialized := true }, (d.initOnce fs).2.2)) :=
    initOnce_initialized _ _ rfl
  conv_lhs => unfold Put
  conv_rhs => unfold Put
  simp only [h, h2]
  rw [hst]

/-- In a tree, an initialisation that fails changes nothing. -/
theorem initOnce_failed (d : DiskStore) (fs : FS) (ht : fs.Tree) (err : Error)
    (h : (d.initOnce fs).1 = some err) : (d.initOnce fs).2 = (d, fs) := by
  unfold initOnce at h ⊢
  cases hi : d.initialized with
  | true => simp [hi] at h
  | false =>
    simp only [hi, Bool.false_eq_true, if_false, ensureDirExists] at h ⊢
    cases hm : (osMkdirAll fs d.blobDir).1 with
    | none => simp [hm, osError, errorsErr] at h
    | some e =>
      have := (osMkdirAll_tree fs d.blobDir ht).2.2 (by rw [hm]; simp)
      cases e <;> simp [hm, osError, errorsErr, this]

theorem initOnce_tree (d : DiskStore) (fs : FS) (ht : fs.Tree) : (d.initOnce fs).2.2.Tree := by
  unfold initOnce
  cases hi : d.initialized with
  | true => exact ht
  | false =>
    simp only [Bool.false_eq_true, if_false, ensureDirExists]
    have := (osMkdirAll_tree fs d.blobDir ht).1
    split <;> exact this

theorem Put_init_failed (d : DiskStore) (hash : GoString) (blob : Blob) (fs : FS) (err : Error)
    (h : (d.initOnce fs).1 = some err) : (d.Put hash blob fs).2 = (d.initOnce fs).2 := by
  simp [Put, h]

theorem Delete_init_failed_state (d : DiskStore) (hash : GoString) (fs : FS) (err : Error)
    (h : (d.initOnce fs).1 = some err) : (d.Delete hash fs).2 = (d.initOnce fs).2 := by
  simp [Delete, h]

/-- The state that a `Put` on an initialised store leaves. -/
theorem Put_state (d : DiskStore) (hash : GoString) (blob : Blob) (fs : FS)
    (hi : d.initialized = true) :
    (d.Put hash blob fs).2.1 = d ∧
      ((d.Put hash blob fs).2.2 = (osMkdirAll fs (d.dir hash)).2 ∨
        (d.Put hash blob fs).2.2 =
          (osMkdirAll fs (d.dir hash)).2.set (resolve (d.path hash)) (Node.file blob)) := by
  simp only [Put, initOnce_initialized d fs hi, ensureDirExists]
  split
  · exact ⟨rfl, Or.inl rfl⟩
  · exact ⟨rfl, ioutilWriteFile_state _ _ _⟩

/-- The state that a `Delete` on an initialised store leaves. -/
theorem Delete_state (d : DiskStore) (hash : GoString) (fs : FS)
    (hi : d.initialized = true) :
    (d.Delete hash fs).2.1 = d ∧
      ((d.Delete hash fs).2.2 = fs ∨
        (d.Delete hash fs).2.2 = fs.erase (resolve (d.path hash))) := by
  have hs : (d.Has hash fs).2 = (d, fs) := by
    rw [Has_state, initOnce_initialized d fs hi]
  simp only [Delete, initOnce_initialized d fs hi]
  split
  · rw [hs]
    exact ⟨rfl, Or.inl rfl⟩
  · split
    · rw [hs]
      exact ⟨rfl, Or.inl rfl⟩
    · rw [hs]
      exact ⟨rfl, osRemove_state _ _⟩

/-- On an initialised store in a tree, a `Put` under a hex hash leaves the
store as it is and the file of any other hex hash as it is. -/
theorem stat_after_Put (d : DiskStore) (fs : FS) (h1 h2 : GoString) (b : Blob)
    (hi : d.initialized = true) (ht : fs.Tree) (hh1 : isHex h1 = true)
    (hh2 : isHex h2 = true) (hne : h1 ≠ h2) :
    (d.Put h2 b fs).2.1 = d ∧
      osStat (d.Put h2 b fs).2.2 (d.path h1) = osStat fs (d.path h1) := by
  obtain ⟨hd, hfs⟩ := Put_state d h2 b fs hi
  refine ⟨hd, ?_⟩
  obtain ⟨hne1, _, hp1, _⟩ := path_shape_any d h1 hh1
  obtain ⟨_, hr2, hp2, _⟩ := path_shape_any d h2 hh2
  obtain ⟨ht2, hchg, _⟩ := osMkdirAll_tree fs (d.dir h2) ht
  have hA : osStat (osMkdirAll fs (d.dir h2)).2 (d.path h1) = osStat fs (d.path h1) := by
    simp only [osStat, hne1, if_false, hp1]
    apply FS.Tree.lookupPath_frame ht ht2
    · intro t
      rcases hchg t with h | ⟨h, h', _⟩
      · exact Or.inl h
      · exact Or.inr ⟨h, h'⟩
    · rcases hchg (FPath.mk (resolve d.blobDir).rooted (h1 :: (resolve (d.dir h1)).rev))
        with h | ⟨_, _, _, h⟩
      · exact h
      · exact absurd h (path_not_suffix_dir d h1 h2 hh1 hh2)
  rcases hfs with hfs | hfs
  · rw [hfs]
    exact hA
  · rw [hfs, ← hA]
    apply osStat_frame
    · intro t hne2
      rw [FS.node_set, if_neg hne2]
    · rw [hp1, hp2]
      intro hc
      rcases List.suffix_cons_iff.1 hc.2 with h | h
      · injection h with h _
        exact hne h.symm
      · exact path_not_suffix_dir d h2 h1 hh2 hh1 h

/-- On an initialised store, a `Delete` of a hex hash leaves the store as it
is and the file of any other hex hash as it is. -/
theorem stat_after_Delete (d : DiskStore) (fs : FS) (h1 h2 : GoString)
    (hi : d.initialized = true) (hh1 : isHex h1 = true)
    (hh2 : isHex h2 = true) (hne : h1 ≠ h2) :
    (d.Delete h2 fs).2.1 = d ∧
      osStat (d.Delete h2 fs).2.2 (d.path h1) = osStat fs (d.path h1) := by
  obtain ⟨hd, hfs⟩ := Delete_state d h2 fs hi
  refine ⟨hd, ?_⟩
  obtain ⟨_, _, hp1, _⟩ := path_shape_any d h1 hh1
  obtain ⟨_, _, hp2, _⟩ := path_shape_any d h2 hh2
  rcases hfs with hfs | hfs
  · rw [hfs]
  · rw [hfs]
    apply osStat_frame
    · intro t hne2
      rw [FS.node_erase, if_neg hne2]
    · rw [hp1, hp2]
      intro hc
      rcases List.suffix_cons_iff.1 hc.2 with h | h
      · injection h with h _
        exact hne h.symm
      · exact path_not_suffix_dir d h2 h1 hh2 hh1 h

/-- C13: for a disk store, a file tree and two distinct hex hashes `h1` and
`h2`, the paths of the two are different files and none of them is the
directory of a hex hash (the directory of the store or a shard directory);
`Put(h2, b)` and `Delete(h2)` leave the results of `Get(h1)` and `Has(h1)`
unchanged. -/
theorem Put_Delete_leave_other_hashes (d : DiskStore) (fs : FS) (h1 h2 : GoString) (b : Blob)
    (htree : fs.wellFormed = true) (hh1 : isHex h1 = true) (hh2 : isHex h2 = true)
    (hne : h1 ≠ h2) :
    d.path h1 ≠ d.path h2 ∧
      resolve (d.path h1) ≠ resolve (d.path h2) ∧
      (∀ h, isHex h = true →
        resolve (d.path h1) ≠ resolve (d.dir h) ∧ resolve (d.path h2) ≠ resolve (d.dir h)) ∧
      ((d.Put h2 b fs).2.1.Get h1 (d.Put h2 b fs).2.2).1 = (d.Get h1 fs).1 ∧
      ((d.Put h2 b fs).2.1.Has h1 (d.Put h2 b fs).2.2).1 = (d.Has h1 fs).1 ∧
      ((d.Delete h2 fs).2.1.Get h1 (d.Delete h2 fs).2.2).1 = (d.Get h1 fs).1 ∧
      ((d.Delete h2 fs).2.1.Has h1 (d.Delete h2 fs).2.2).1 = (d.Has h1 fs).1 := by
  have ht := FS.tree_of_wellFormed fs htree
  obtain ⟨hd1, hd2⟩ := paths_distinct d h1 h2 hh1 hh2 hne
  obtain ⟨_, hd3⟩ := paths_distinct d h2 h1 hh2 hh1 (fun e => hne e.symm)
  refine ⟨fun e => hd1 (by rw [e]), hd1, fun h hh => ⟨hd2 h hh, hd3 h hh⟩, ?_⟩
  cases hi : (d.initOnce fs).1 with
  | some err =>
    have hst := initOnce_failed d fs ht err hi
    have hput : (d.Put h2 b fs).2 = (d, fs) := by rw [Put_init_failed d h2 b fs err hi, hst]
    have hdel : (d.Delete h2 fs).2 = (d, fs) := by
      rw [Delete_init_failed_state d h2 fs err hi, hst]
    rw [hput, hdel]
    exact ⟨rfl, rfl, rfl, rfl⟩
  | none =>
    have ht1 := initOnce_tree d fs ht
    obtain ⟨hp1, hp2⟩ := stat_after_Put ({ d with initialized := true } : DiskStore)
      (d.initOnce fs).2.2 h1 h2 b rfl ht1 hh1 hh2 hne
    obtain ⟨hq1, hq2⟩ := stat_after_Delete ({ d with initialized := true } : DiskStore)
      (d.initOnce fs).2.2 h1 h2 rfl hh1 hh2 hne
    rw [Put_eq_init d h2 b fs hi, Delete_eq_init d h2 fs hi, Get_eq_init d h1 fs hi,
      Has_eq_init d h1 fs hi, hp1, hq1]
    exact ⟨Get_stat_congr _ h1 _ _ rfl hp2, Has_stat_congr _ h1 _ _ rfl hp2,
      Get_stat_congr _ h1 _ _ rfl hq2, Has_stat_congr _ h1 _ _ rfl hq2⟩

/-- C13 under `/data`, where `abcd` is stored: a `Put` and a `Delete` of
`abef`, in the same shard directory, leave `Get` and `Has` of `abcd` as they
are. -/
theorem Put_Delete_leave_other_hashes_witness :
    dataState.2.wellFormed = true ∧ isHex "abcd".toList = true ∧ isHex "abef".toList = true ∧
      "abcd".toList ≠ "abef".toList ∧
      (dataState.1.Get "abcd".toList dataState.2).1 = ([1, 2, 3], none) ∧
      ((dataState.1.Put "abef".toList [9] dataState.2).2.1.Get "abcd".toList
        (dataState.1.Put "abef".toList [9] dataState.2).2.2).1 = ([1, 2, 3], none) ∧
      ((dataState.1.Delete "abef".toList dataState.2).2.1.Has "abcd".toList
        (dataState.1.Delete "abef".toList dataState.2).2.2).1 = (true, none) :=
  have h := Put_Delete_leave_other_hashes dataState.1 dataState.2 "abcd".toList "abef".toList
    [9] (by decide) (by decide) (by decide) (by decide)
  ⟨by decide, by decide, by decide, by decide, by decide,
    h.2.2.2.1.trans (by decide), h.2.2.2.2.2.2.trans (by decide)⟩

end DiskStore

end Reflector
